import Mathlib

/-!
Verification development for the `updates` CLI (src/updates.js): a shallow
embedding of its version-resolution engine and the string-rewriting helpers,
together with theorems settling the specification claims.

Strings are modelled as `List Char` (`Str`).  The semantics of the `semver`
npm library operations that the code calls (`parse`, `valid`, `coerce`,
`diff`, `gt`, `lt`, `gte`) are embedded following node-semver's documented
behaviour of the era the code depends on; build metadata is accepted by the
parser and discarded, exactly as it is ignored by all comparisons the code
performs.
-/

/-- Strings as lists of characters. -/
abbrev Str := List Char

/-- A prerelease identifier: numeric (compared numerically) or alphanumeric
(compared as a string), as in node-semver's parsed `prerelease` array. -/
inductive PreId where
  | num (n : Nat)
  | str (s : Str)
deriving DecidableEq

/-- A parsed semantic version (build metadata is ignored by every comparison
in the program, so it is not stored). -/
structure SemVer where
  major : Nat
  minor : Nat
  patch : Nat
  pre : List PreId
deriving DecidableEq

/-- Three-way comparison on `Nat`. -/
def cmpNat (a b : Nat) : Ordering :=
  if a < b then .lt else if a = b then .eq else .gt

/-- Three-way comparison on `Char` by code point (JS string comparison is by
code unit; all characters occurring in semver identifiers are ASCII). -/
def cmpChar (a b : Char) : Ordering :=
  cmpNat a.toNat b.toNat

/-- Lexicographic comparison of lists, shorter prefix first. -/
def cmpList (f : α → α → Ordering) : List α → List α → Ordering
  | [], [] => .eq
  | [], _ :: _ => .lt
  | _ :: _, [] => .gt
  | a :: as, b :: bs => (f a b).then (cmpList f as bs)

/-- node-semver `compareIdentifiers`: numeric identifiers compare numerically
and sort below alphanumeric ones; alphanumeric ones compare as strings. -/
def cmpPreId : PreId → PreId → Ordering
  | .num a, .num b => cmpNat a b
  | .num _, .str _ => .lt
  | .str _, .num _ => .gt
  | .str a, .str b => cmpList cmpChar a b

/-- node-semver `comparePre`: a release (empty prerelease list) sorts above
any prerelease of the same numeric triple; otherwise identifiers compare
lexicographically with the shorter list first. -/
def cmpPre : List PreId → List PreId → Ordering
  | [], [] => .eq
  | _ :: _, [] => .lt
  | [], _ :: _ => .gt
  | a :: as, b :: bs => cmpList cmpPreId (a :: as) (b :: bs)

/-- Full semver precedence comparison (`semver.compare`). -/
def sCmp (a b : SemVer) : Ordering :=
  (cmpNat a.major b.major).then
    ((cmpNat a.minor b.minor).then
      ((cmpNat a.patch b.patch).then (cmpPre a.pre b.pre)))

section CmpLemmas

theorem cmpNat_eq_iff {a b : Nat} : cmpNat a b = .eq ↔ a = b := by
  unfold cmpNat
  split_ifs with h1 h2 <;> simp_all <;> omega

theorem cmpNat_lt_iff {a b : Nat} : cmpNat a b = .lt ↔ a < b := by
  unfold cmpNat
  split_ifs with h1 h2 <;> simp_all

theorem cmpNat_gt_iff {a b : Nat} : cmpNat a b = .gt ↔ b < a := by
  unfold cmpNat
  split_ifs with h1 h2 <;> simp_all <;> omega

theorem cmpNat_swap {a b : Nat} : cmpNat a b = .lt ↔ cmpNat b a = .gt := by
  rw [cmpNat_lt_iff, cmpNat_gt_iff]

theorem cmpChar_eq_iff {a b : Char} : cmpChar a b = .eq ↔ a = b := by
  unfold cmpChar
  rw [cmpNat_eq_iff]
  constructor
  · intro h
    exact Char.ext (UInt32.ext h)
  · intro h; rw [h]

theorem cmpChar_swap {a b : Char} : cmpChar a b = .lt ↔ cmpChar b a = .gt := by
  unfold cmpChar; exact cmpNat_swap

theorem cmpChar_trans {a b c : Char} (h1 : cmpChar a b = .lt) (h2 : cmpChar b c = .lt) :
    cmpChar a c = .lt := by
  unfold cmpChar at *
  rw [cmpNat_lt_iff] at *
  omega

section GenericList

variable {α : Type} {f : α → α → Ordering}

theorem cmpList_eq_iff (feq : ∀ a b, f a b = .eq ↔ a = b) :
    ∀ as bs, cmpList f as bs = .eq ↔ as = bs := by
  intro as
  induction as with
  | nil => intro bs; cases bs <;> simp [cmpList]
  | cons a as ih =>
    intro bs
    cases bs with
    | nil => simp [cmpList]
    | cons b bs =>
      simp only [cmpList]
      cases hf : f a b <;> simp [Ordering.then]
      · intro h
        rw [← feq a b, hf] at h; simp at h
      · rw [ih bs]
        have : a = b := (feq a b).mp hf
        simp [this]
      · intro h
        rw [← feq a b, hf] at h; simp at h

theorem cmpList_swap (feq : ∀ a b, f a b = .eq ↔ a = b)
    (fswap : ∀ a b, f a b = .lt ↔ f b a = .gt) :
    ∀ as bs, cmpList f as bs = .lt ↔ cmpList f bs as = .gt := by
  intro as
  induction as with
  | nil => intro bs; cases bs <;> simp [cmpList]
  | cons a as ih =>
    intro bs
    cases bs with
    | nil => simp [cmpList]
    | cons b bs =>
      simp only [cmpList]
      cases hf : f a b
      · have : f b a = .gt := (fswap a b).mp hf
        simp [Ordering.then, hf, this]
      · have heq : a = b := (feq a b).mp hf
        subst heq
        have : f a a = .eq := (feq a a).mpr rfl
        simp [Ordering.then, this, ih bs]
      · have hlt : f b a = .lt := (fswap b a).mpr hf
        simp [Ordering.then, hf, hlt]

theorem cmpList_trans (feq : ∀ a b, f a b = .eq ↔ a = b)
    (ftrans : ∀ a b c, f a b = .lt → f b c = .lt → f a c = .lt) :
    ∀ as bs cs, cmpList f as bs = .lt → cmpList f bs cs = .lt →
    cmpList f as cs = .lt := by
  intro as
  induction as with
  | nil =>
    intro bs cs h1 h2
    cases bs with
    | nil => simp [cmpList] at h1
    | cons b bs =>
      cases cs with
      | nil => simp [cmpList] at h2
      | cons c cs => simp [cmpList]
  | cons a as ih =>
    intro bs cs h1 h2
    cases bs with
    | nil => simp [cmpList] at h1
    | cons b bs =>
      cases cs with
      | nil => simp [cmpList] at h2
      | cons c cs =>
        simp only [cmpList] at *
        cases hab : f a b <;> rw [hab] at h1 <;> simp [Ordering.then] at h1
        · -- a < b
          cases hbc : f b c <;> rw [hbc] at h2 <;> simp [Ordering.then] at h2
          · have : f a c = .lt := ftrans a b c hab hbc
            simp [Ordering.then, this]
          · have heq : b = c := (feq b c).mp hbc
            subst heq
            simp [Ordering.then, hab]
        · -- a = b
          have heq : a = b := (feq a b).mp hab
          subst heq
          cases hbc : f a c <;> rw [hbc] at h2 <;> simp [Ordering.then] at h2
          · simp [Ordering.then, hbc]
          · have : cmpList f as cs = .lt := ih bs cs h1 h2
            simp [Ordering.then, hbc, this]

end GenericList

theorem cmpPreId_eq_iff : ∀ a b, cmpPreId a b = .eq ↔ a = b := by
  intro a b
  cases a <;> cases b <;> simp [cmpPreId]
  · exact cmpNat_eq_iff
  · exact cmpList_eq_iff (fun a b => cmpChar_eq_iff) _ _

theorem cmpPreId_swap : ∀ a b, cmpPreId a b = .lt ↔ cmpPreId b a = .gt := by
  intro a b
  cases a <;> cases b <;> simp [cmpPreId]
  · exact cmpNat_swap
  · exact cmpList_swap (fun a b => cmpChar_eq_iff) (fun a b => cmpChar_swap) _ _

theorem cmpPreId_trans : ∀ a b c, cmpPreId a b = .lt → cmpPreId b c = .lt →
    cmpPreId a c = .lt := by
  intro a b c h1 h2
  cases a <;> cases b <;> cases c <;> simp [cmpPreId] at *
  · rw [cmpNat_lt_iff] at *; omega
  · exact cmpList_trans (fun a b => cmpChar_eq_iff)
      (fun a b c => cmpChar_trans) _ _ _ h1 h2

theorem cmpPre_eq_iff : ∀ a b, cmpPre a b = .eq ↔ a = b := by
  intro a b
  cases a with
  | nil =>
    cases b with
    | nil => simp [cmpPre]
    | cons y ys => simp [cmpPre]
  | cons x xs =>
    cases b with
    | nil => simp [cmpPre]
    | cons y ys => exact cmpList_eq_iff cmpPreId_eq_iff (x :: xs) (y :: ys)

theorem cmpPre_swap : ∀ a b, cmpPre a b = .lt ↔ cmpPre b a = .gt := by
  intro a b
  cases a with
  | nil =>
    cases b with
    | nil => simp [cmpPre]
    | cons y ys => simp [cmpPre]
  | cons x xs =>
    cases b with
    | nil => simp [cmpPre]
    | cons y ys => exact cmpList_swap cmpPreId_eq_iff cmpPreId_swap (x :: xs) (y :: ys)

theorem cmpPre_trans : ∀ a b c, cmpPre a b = .lt → cmpPre b c = .lt →
    cmpPre a c = .lt := by
  intro a b c h1 h2
  cases a with
  | nil =>
    cases b with
    | nil => simp [cmpPre] at h1
    | cons y ys => simp [cmpPre] at h1
  | cons x xs =>
    cases b with
    | nil =>
      cases c with
      | nil => simp [cmpPre] at h2
      | cons z zs => simp [cmpPre] at h2
    | cons y ys =>
      cases c with
      | nil => simp [cmpPre]
      | cons z zs => exact cmpList_trans cmpPreId_eq_iff cmpPreId_trans _ _ _ h1 h2

theorem then_lt_iff {o1 o2 : Ordering} :
    o1.then o2 = .lt ↔ o1 = .lt ∨ (o1 = .eq ∧ o2 = .lt) := by
  cases o1 <;> simp [Ordering.then]

theorem then_gt_iff {o1 o2 : Ordering} :
    o1.then o2 = .gt ↔ o1 = .gt ∨ (o1 = .eq ∧ o2 = .gt) := by
  cases o1 <;> simp [Ordering.then]

theorem then_eq_iff {o1 o2 : Ordering} :
    o1.then o2 = .eq ↔ o1 = .eq ∧ o2 = .eq := by
  cases o1 <;> simp [Ordering.then]

theorem sCmp_eq_iff {a b : SemVer} : sCmp a b = .eq ↔ a = b := by
  unfold sCmp
  rw [then_eq_iff, then_eq_iff, then_eq_iff,
    cmpNat_eq_iff, cmpNat_eq_iff, cmpNat_eq_iff, cmpPre_eq_iff]
  constructor
  · rintro ⟨h1, h2, h3, h4⟩
    cases a; cases b; simp_all
  · intro h; rw [h]; simp

theorem sCmp_refl {a : SemVer} : sCmp a a = .eq := sCmp_eq_iff.mpr rfl

theorem sCmp_swap {a b : SemVer} : sCmp a b = .lt ↔ sCmp b a = .gt := by
  unfold sCmp
  rw [then_lt_iff, then_gt_iff, then_lt_iff, then_gt_iff, then_lt_iff, then_gt_iff]
  have e1 : cmpNat a.major b.major = .eq ↔ cmpNat b.major a.major = .eq := by
    rw [cmpNat_eq_iff, cmpNat_eq_iff]; exact eq_comm
  have e2 : cmpNat a.minor b.minor = .eq ↔ cmpNat b.minor a.minor = .eq := by
    rw [cmpNat_eq_iff, cmpNat_eq_iff]; exact eq_comm
  have e3 : cmpNat a.patch b.patch = .eq ↔ cmpNat b.patch a.patch = .eq := by
    rw [cmpNat_eq_iff, cmpNat_eq_iff]; exact eq_comm
  rw [cmpNat_swap, e1, cmpNat_swap, e2, cmpNat_swap, e3, cmpPre_swap]

theorem then_trans_lt {x X y Y z Z : Ordering}
    (t : x = .lt → y = .lt → z = .lt) (e : x = .eq → y = .eq → z = .eq)
    (m : x = .lt → y = .eq → z = .lt) (m2 : x = .eq → y = .lt → z = .lt)
    (rest : x = .eq → y = .eq → X = .lt → Y = .lt → Z = .lt)
    (h1 : x.then X = .lt) (h2 : y.then Y = .lt) : z.then Z = .lt := by
  rw [then_lt_iff] at h1 h2 ⊢
  rcases h1 with h1 | ⟨h1, hX⟩ <;> rcases h2 with h2 | ⟨h2, hY⟩
  · exact Or.inl (t h1 h2)
  · exact Or.inl (m h1 h2)
  · exact Or.inl (m2 h1 h2)
  · exact Or.inr ⟨e h1 h2, rest h1 h2 hX hY⟩

theorem cmpNat_t {u v w : Nat} (h1 : cmpNat u v = .lt) (h2 : cmpNat v w = .lt) :
    cmpNat u w = .lt := by
  rw [cmpNat_lt_iff] at *; omega

theorem cmpNat_e {u v w : Nat} (h1 : cmpNat u v = .eq) (h2 : cmpNat v w = .eq) :
    cmpNat u w = .eq := by
  rw [cmpNat_eq_iff] at *; omega

theorem cmpNat_m {u v w : Nat} (h1 : cmpNat u v = .lt) (h2 : cmpNat v w = .eq) :
    cmpNat u w = .lt := by
  rw [cmpNat_lt_iff] at *; rw [cmpNat_eq_iff] at h2; omega

theorem cmpNat_m2 {u v w : Nat} (h1 : cmpNat u v = .eq) (h2 : cmpNat v w = .lt) :
    cmpNat u w = .lt := by
  rw [cmpNat_lt_iff] at *; rw [cmpNat_eq_iff] at h1; omega

theorem sCmp_trans_lt {a b c : SemVer} (h1 : sCmp a b = .lt) (h2 : sCmp b c = .lt) :
    sCmp a c = .lt := by
  unfold sCmp at *
  refine then_trans_lt cmpNat_t cmpNat_e cmpNat_m cmpNat_m2 (fun _ _ => ?_) h1 h2
  intro hX hY
  refine then_trans_lt cmpNat_t cmpNat_e cmpNat_m cmpNat_m2 (fun _ _ => ?_) hX hY
  intro hX2 hY2
  refine then_trans_lt cmpNat_t cmpNat_e cmpNat_m cmpNat_m2 (fun _ _ => ?_) hX2 hY2
  exact cmpPre_trans _ _ _

theorem sCmp_total {a b : SemVer} :
    sCmp a b = .lt ∨ sCmp a b = .eq ∨ sCmp a b = .gt := by
  cases sCmp a b <;> simp

/-- `x ≤ y` in the order used by `semver.gte`/`semver.lt`. -/
theorem sCmp_le_trans {a b c : SemVer} (h1 : sCmp a b ≠ .gt) (h2 : sCmp b c ≠ .gt) :
    sCmp a c ≠ .gt := by
  rcases sCmp_total (a := a) (b := b) with hab | hab | hab
  · rcases sCmp_total (a := b) (b := c) with hbc | hbc | hbc
    · intro hac
      have h3 : sCmp a c = .lt := sCmp_trans_lt hab hbc
      rw [h3] at hac; exact Ordering.noConfusion hac
    · have : b = c := sCmp_eq_iff.mp hbc
      subst this
      intro hac; rw [hab] at hac; exact Ordering.noConfusion hac
    · exact absurd hbc h2
  · have : a = b := sCmp_eq_iff.mp hab
    subst this; exact h2
  · exact absurd hab h1

theorem sCmp_not_lt_of_swap {a b : SemVer} (h : sCmp a b ≠ .lt) : sCmp b a ≠ .gt := by
  intro hg
  exact h (sCmp_swap.mpr hg)

theorem sCmp_not_gt_of_swap {a b : SemVer} (h : sCmp a b ≠ .gt) : sCmp b a ≠ .lt := by
  intro hl
  exact h (sCmp_swap.mp hl)

/-! ## Semver string parsing (`semver.parse` / `semver.valid`) -/

/-- ASCII digit test. -/
def isDigitC (c : Char) : Bool := 48 ≤ c.toNat && c.toNat ≤ 57

/-- Letter, digit or hyphen: the characters allowed in prerelease/build
identifiers. -/
def isIdentC (c : Char) : Bool :=
  isDigitC c || (65 ≤ c.toNat && c.toNat ≤ 90) || (97 ≤ c.toNat && c.toNat ≤ 122) ||
    c.toNat = 45

/-- Decimal value of a digit string (assumes all digits). -/
def digitsToNat (s : Str) : Nat :=
  s.foldl (fun a c => a * 10 + (c.toNat - 48)) 0

/-- A numeric identifier: digits only, no leading zero (except "0" itself). -/
def parseNumId (s : Str) : Option Nat :=
  match s with
  | [] => none
  | c :: rest =>
    if (c :: rest).all isDigitC then
      if c = '0' && rest ≠ [] then none else some (digitsToNat (c :: rest))
    else none

/-- A prerelease identifier: numeric (no leading zeros) or alphanumeric
containing at least one non-digit. -/
def parsePreId (s : Str) : Option PreId :=
  match s with
  | [] => none
  | c :: rest =>
    if (c :: rest).all isDigitC then
      if c = '0' && rest ≠ [] then none else some (.num (digitsToNat (c :: rest)))
    else if (c :: rest).all isIdentC then some (.str (c :: rest))
    else none

/-- Split a string on a separator character (no escaping). -/
def splitOnC (sep : Char) : Str → List Str
  | [] => [[]]
  | c :: rest =>
    match splitOnC sep rest with
    | [] => if c = sep then [[], []] else [[c]]
    | g :: gs => if c = sep then [] :: g :: gs else (c :: g) :: gs

/-- Split at the first occurrence of a separator, if any. -/
def breakAtFirst (sep : Char) : Str → Str × Option Str
  | [] => ([], none)
  | c :: rest =>
    if c = sep then ([], some rest)
    else
      match breakAtFirst sep rest with
      | (a, t) => (c :: a, t)

/-- `semver.parse`: optional leading `v`, `major.minor.patch`, optional
`-prerelease` (dot-separated identifiers), optional `+build` (dot-separated
alphanumeric identifiers, discarded).  Returns `none` exactly when
`semver.valid` is null. -/
def parseSemVer (s : Str) : Option SemVer :=
  let s := match s with
    | 'v' :: r => r
    | _ => s
  let core := (breakAtFirst '+' s).1
  let build := (breakAtFirst '+' s).2
  let mainPart := (breakAtFirst '-' core).1
  let prePart := (breakAtFirst '-' core).2
  match splitOnC '.' mainPart with
  | [ma, mi, pa] =>
    match parseNumId ma, parseNumId mi, parseNumId pa with
    | some M, some m, some p =>
      let preIds : Option (List PreId) :=
        match prePart with
        | none => some []
        | some pr => (splitOnC '.' pr).mapM parsePreId
      match preIds with
      | none => none
      | some pre =>
        match build with
        | none => some ⟨M, m, p, pre⟩
        | some b =>
          if b ≠ [] && (splitOnC '.' b).all (fun id => id ≠ [] && id.all isIdentC) then
            some ⟨M, m, p, pre⟩
          else none
    | _, _, _ => none
  | _ => none

/-- `semver.coerce` starting at a digit: a digit run (as major), then
optionally `.run` (minor) and `.run` (patch); missing components default
to 0.  The resulting triple is re-parsed, so a component with a leading
zero makes the whole coercion fail, as in node-semver. -/
def coerceRun (s : Str) : Option SemVer :=
  match parseNumId (s.takeWhile isDigitC) with
  | none => none
  | some M =>
    match s.drop (s.takeWhile isDigitC).length with
    | '.' :: r2 =>
      match r2.takeWhile isDigitC with
      | [] => some ⟨M, 0, 0, []⟩
      | c2 :: d2r =>
        match parseNumId (c2 :: d2r) with
        | none => none
        | some m =>
          match r2.drop (c2 :: d2r).length with
          | '.' :: r3 =>
            match r3.takeWhile isDigitC with
            | [] => some ⟨M, m, 0, []⟩
            | c3 :: d3r =>
              match parseNumId (c3 :: d3r) with
              | none => none
              | some p => some ⟨M, m, p, []⟩
          | _ => some ⟨M, m, 0, []⟩
    | _ => some ⟨M, 0, 0, []⟩

/-- `semver.coerce`: find the first digit and coerce the version-ish run
starting there; `none` when the string holds no digits (or the matched
component re-parses as invalid). -/
def coerceFrom : Str → Option SemVer
  | [] => none
  | c :: rest => if isDigitC c then coerceRun (c :: rest) else coerceFrom rest

/-- `rangeToVersion` (src/updates.js:481): `semver.coerce(range).version`
with the `TypeError` on a null coercion caught and turned into null. -/
def rangeToVersion (range : Str) : Option SemVer :=
  coerceFrom range

/-- Line terminators, which `.` in a JS regex does not match. -/
def isLineTerm (c : Char) : Bool :=
  c = '\n' || c = '\r' || c.toNat = 0x2028 || c.toNat = 0x2029

/-- One attempt of `/[0-9]+\.[0-9]+\.[0-9]+-.+/` anchored at the start of
`s`: three dot-separated digit runs, a hyphen, and at least one
non-line-terminator character. -/
def preMatchAt (s : Str) : Bool :=
  let d1 := s.takeWhile isDigitC
  if d1 = [] then false
  else
    match s.drop d1.length with
    | '.' :: r2 =>
      let d2 := r2.takeWhile isDigitC
      if d2 = [] then false
      else
        match r2.drop d2.length with
        | '.' :: r3 =>
          let d3 := r3.takeWhile isDigitC
          if d3 = [] then false
          else
            match r3.drop d3.length with
            | '-' :: (c :: _) => !(isLineTerm c)
            | _ => false
        | _ => false
    | _ => false

/-- `isRangePrerelease` (src/updates.js:476): test of the unanchored regex
`/[0-9]+\.[0-9]+\.[0-9]+-.+/` against the range. -/
def isRangePrerelease : Str → Bool
  | [] => false
  | c :: rest => preMatchAt (c :: rest) || isRangePrerelease rest

/-- `isVersionPrerelease` (src/updates.js:470): parse, and report a
non-empty prerelease list; an unparseable string is not a prerelease. -/
def isVersionPrerelease (version : Str) : Bool :=
  match parseSemVer version with
  | none => false
  | some p => !p.pre.isEmpty

/-! ## Formatting (`SemVer#version`) -/

/-- Decimal digits of a natural number, fuelled (structural) recursion. -/
def natDigitsF : Nat → Nat → Str
  | 0, _ => []
  | f + 1, n =>
    if n < 10 then [Char.ofNat (48 + n)]
    else natDigitsF f (n / 10) ++ [Char.ofNat (48 + n % 10)]

/-- Decimal representation of a natural number. -/
def natToStr (n : Nat) : Str := natDigitsF (n + 1) n

/-- Textual form of a prerelease identifier. -/
def preIdStr : PreId → Str
  | .num n => natToStr n
  | .str s => s

/-- Join strings with `.`. -/
def joinDot : List Str → Str
  | [] => []
  | [s] => s
  | s :: rest => s ++ '.' :: joinDot rest

/-- Canonical version string `major.minor.patch[-pre]`, as node-semver's
`format`/`version` produces. -/
def formatSemVer (v : SemVer) : Str :=
  natToStr v.major ++ '.' :: natToStr v.minor ++ '.' :: natToStr v.patch ++
    (match v.pre with
     | [] => []
     | pre => '-' :: joinDot (pre.map preIdStr))

/-! ## Semver diff classes (`semver.diff`, old node-semver semantics used by
the program: `pre`-prefixed class when either side is a prerelease) -/

/-- The diff classes `semver.diff` can produce. -/
inductive DiffClass where
  | major | premajor | minor | preminor | patch | prepatch | prerelease
deriving DecidableEq

/-- Membership of a diff class in a policy list (`Array#includes`). -/
def memB (d : DiffClass) : List DiffClass → Bool
  | [] => false
  | x :: rest => x = d || memB d rest

/-- `semver.diff a b`: `none` when the versions are equal; otherwise the
first differing component of the numeric triple, `pre`-prefixed when either
side has a prerelease part; `prerelease` when only the prerelease parts
differ.  (The empty-string result the JS returns when nothing differs is
falsy there and is modelled as `none`.) -/
def semverDiff (a b : SemVer) : Option DiffClass :=
  if sCmp a b = .eq then none
  else if a.major ≠ b.major then
    some (if !(a.pre.isEmpty && b.pre.isEmpty) then .premajor else .major)
  else if a.minor ≠ b.minor then
    some (if !(a.pre.isEmpty && b.pre.isEmpty) then .preminor else .minor)
  else if a.patch ≠ b.patch then
    some (if !(a.pre.isEmpty && b.pre.isEmpty) then .prepatch else .patch)
  else if !(a.pre.isEmpty && b.pre.isEmpty) then some .prerelease
  else none

/-- `diff.replace(/^pre/, "")` as used on line 564 of src/updates.js (only
reached when the class is not `prerelease`). -/
def stripPre : DiffClass → DiffClass
  | .premajor => .major
  | .preminor => .minor
  | .prepatch => .patch
  | d => d

/-- The `semvers` array built in `main` (src/updates.js:678-685) from the
patch/minor flags. -/
inductive Ceiling where
  | patch | minor | major

def ceilingSemvers : Ceiling → List DiffClass
  | .patch => [.patch]
  | .minor => [.patch, .minor]
  | .major => [.patch, .minor, .major]

/-- The pushes at the top of `findVersion` (src/updates.js:496-501): with
`usePre`, add `prerelease` and the `pre` variant of every class present. -/
def extendSemvers (s : List DiffClass) (usePre : Bool) : List DiffClass :=
  if usePre then
    let s1 := s ++ [.prerelease]
    let s2 := if memB .patch s1 then s1 ++ [.prepatch] else s1
    let s3 := if memB .minor s2 then s2 ++ [.preminor] else s2
    if memB .major s3 then s3 ++ [.premajor] else s3
  else s

/-- `semver.coerce(parsed.version).version` for an already parsed version:
the numeric triple with the prerelease part dropped. -/
def coerceVer (v : SemVer) : SemVer := ⟨v.major, v.minor, v.patch, []⟩

/-! ## The resolution engine (`findVersion` / `findNewVersion`) -/

/-- A `true | false | list-of-names` command line flag after
`parseMixedArg` (src/updates.js:651). -/
inductive MixedArg where
  | all
  | disabled
  | pkgs (l : List Str)

/-- The test `allowDowngrade === true || (Array.isArray(allowDowngrade) &&
allowDowngrade.includes(data.name))` (src/updates.js:575). -/
def MixedArg.allows : MixedArg → Str → Bool
  | .all, _ => true
  | .disabled, _ => false
  | .pkgs l, n => l.contains n

/-- The options record handed to `findNewVersion` by `main`
(src/updates.js:689). -/
structure Opts where
  usePre : Bool
  useRel : Bool
  useGreatest : Bool
  semvers : List DiffClass
  range : Str

/-- The slice of a registry metadata document the engine reads: package
name, the keys of `versions`, the optional `time` table (absent on
registries like GitHub; a `none` value models a missing or unparseable
date, i.e. a `NaN` timestamp), and `dist-tags.latest`. -/
structure PackageData where
  name : Str
  versions : List Str
  time : Option (List (Str × Option Int))
  latest : Str

/-- `data.time[version]` with a `NaN`/missing date flattened to `none`. -/
def lookupTime : List (Str × Option Int) → Str → Option Int
  | [], _ => none
  | (k, v) :: rest, key => if k = key then v else lookupTime rest key

/-- The scan loop of `findVersion` (src/updates.js:503-522).  `.error ()`
models the `TypeError`s thrown on `semver.parse(version).prerelease` for an
invalid version and on `semver.diff(null, ...)` for a null base. -/
def fvLoop (hasTime : Bool) (time : List (Str × Option Int))
    (useGreatest usePre useRel : Bool) (semvers : List DiffClass) :
    List Str → Option SemVer → Int → Except Unit (Option SemVer)
  | [], temp, _ => .ok temp
  | ver :: rest, temp, tempDate =>
    match parseSemVer ver with
    | none => .error ()
    | some parsed =>
      if !parsed.pre.isEmpty && (!usePre || useRel) then
        fvLoop hasTime time useGreatest usePre useRel semvers rest temp tempDate
      else
        match temp with
        | none => .error ()
        | some tv =>
          match semverDiff tv parsed with
          | none => fvLoop hasTime time useGreatest usePre useRel semvers rest temp tempDate
          | some diff =>
            if !memB diff semvers then
              fvLoop hasTime time useGreatest usePre useRel semvers rest temp tempDate
            else if useGreatest || !hasTime then
              if sCmp (coerceVer parsed) tv ≠ .lt then
                fvLoop hasTime time useGreatest usePre useRel semvers rest (some parsed) tempDate
              else
                fvLoop hasTime time useGreatest usePre useRel semvers rest temp tempDate
            else
              match lookupTime time ver with
              | none =>
                fvLoop hasTime time useGreatest usePre useRel semvers rest temp tempDate
              | some date =>
                if date ≥ 0 && date > tempDate then
                  fvLoop hasTime time useGreatest usePre useRel semvers rest (some parsed) date
                else
                  fvLoop hasTime time useGreatest usePre useRel semvers rest temp tempDate

/-- `findVersion` (src/updates.js:489-525): scan the catalog keeping the
greatest (greatest mode, or no `time` table) or most recently published
(latest mode) version whose diff class from the moving base is accepted. -/
def findVersion (data : PackageData) (versions : List Str) (opts : Opts) :
    Except Unit (Option SemVer) :=
  let usePre := isRangePrerelease opts.range || opts.usePre
  let semvers := extendSemvers opts.semvers usePre
  fvLoop data.time.isSome (data.time.getD []) opts.useGreatest usePre opts.useRel
    semvers versions (rangeToVersion opts.range) 0

/-- The values `findNewVersion` hands back to `main`: the literal `"*"`, or
a version. -/
inductive NewVer where
  | star
  | ver (v : SemVer)
deriving DecidableEq

/-- Lines 540-584 of `findNewVersion`: the prerelease branches, then the
reconciliation against the latest dist-tag.  `latestP` is the parse of the
latest tag; it is only forced (line 563's `semver.diff`, throwing on an
invalid tag) after the prerelease branches have declined to return. -/
def fnvCascade (allowDowngrade : MixedArg) (name : Str) (opts : Opts)
    (oldIsPre newIsPre latestIsPre : Bool) (oldVersion v : SemVer)
    (latestP : Option SemVer) : Except Unit (Option NewVer) :=
  if (!opts.useRel && opts.usePre) || (oldIsPre && newIsPre) then
    .ok (some (.ver v))
  else if opts.useRel && !(sCmp v oldVersion = .gt) && oldIsPre && !newIsPre then
    .ok (some (.ver v))
  else if oldIsPre && !newIsPre && (sCmp v oldVersion = .gt) then
    .ok (some (.ver v))
  else if oldIsPre && !newIsPre && !(sCmp v oldVersion = .gt) then
    .ok none
  else
    match latestP with
    | none => .error ()
    | some latest =>
      if (match semverDiff oldVersion latest with
          | some d => d ≠ .prerelease && !memB (stripPre d) opts.semvers
          | none => false) then
        .ok (some (.ver v))
      else if opts.useRel && latestIsPre then .ok (some (.ver v))
      else if sCmp latest oldVersion = .lt && !latestIsPre then
        if allowDowngrade.allows name then .ok (some (.ver latest))
        else .ok none
      else .ok (some (.ver latest))

/-- `findNewVersion` (src/updates.js:527-585).  `allowDowngrade` is the
module-level flag read on line 575.  `.error ()` models the `TypeError`s
thrown when `semver.coerce(opts.range).version` is read off a null
coercion, when `semver.gt` is applied to a null candidate, and when
`semver.diff` is applied to an unparseable `latestTag`. -/
def findNewVersion (allowDowngrade : MixedArg) (data : PackageData) (opts : Opts) :
    Except Unit (Option NewVer) :=
  if opts.range = "*".data then .ok (some .star)
  else
    let versions := data.versions.filter (fun v => (parseSemVer v).isSome)
    match findVersion data versions opts with
    | .error e => .error e
    | .ok version =>
      if opts.useGreatest then .ok (version.map NewVer.ver)
      else
        match rangeToVersion opts.range with
        | none => .error ()
        | some oldVersion =>
          match version with
          | none => .error ()
          | some v =>
            fnvCascade allowDowngrade data.name opts
              (isRangePrerelease opts.range) (!v.pre.isEmpty)
              (isVersionPrerelease data.latest) oldVersion v
              (parseSemVer data.latest)

/-! ## Range rewriting (`updateRange`) and manifest patching
(`updatePackageJson`) -/

/-- One attempt of `/[0-9]+\.[0-9]+\.[0-9]+(-.+)?/` anchored at the start
of `s`: three dot-separated maximal digit runs, then optionally a hyphen
followed by every character up to (but excluding) the next line
terminator, greedily.  Returns the length of the match. -/
def matchVerAt (s : Str) : Option Nat :=
  let d1 := s.takeWhile isDigitC
  if d1 = [] then none
  else
    match s.drop d1.length with
    | '.' :: r2 =>
      let d2 := r2.takeWhile isDigitC
      if d2 = [] then none
      else
        match r2.drop d2.length with
        | '.' :: r3 =>
          let d3 := r3.takeWhile isDigitC
          if d3 = [] then none
          else
            let core := d1.length + 1 + d2.length + 1 + d3.length
            match r3.drop d3.length with
            | '-' :: r4 =>
              let t := r4.takeWhile (fun c => !(isLineTerm c))
              if t = [] then some core else some (core + 1 + t.length)
            | _ => some core
        | _ => none
    | _ => none

/-- `String#replace` with a global regex and a plain replacement string:
scan left to right, replacing every (non-empty) match and continuing after
it.  Fuelled structural recursion; the wrapper below supplies enough fuel.
(Replacement strings the program uses never contain `$`, so JS's
substitution patterns do not arise.) -/
def replaceAllF (m : Str → Option Nat) (repl : Str) : Nat → Str → Str
  | _, [] => []
  | 0, s => s
  | fuel + 1, c :: rest =>
    match m (c :: rest) with
    | some n =>
      if n = 0 then c :: replaceAllF m repl fuel rest
      else repl ++ replaceAllF m repl fuel ((c :: rest).drop n)
    | none => c :: replaceAllF m repl fuel rest

def replaceAll (m : Str → Option Nat) (repl : Str) (s : Str) : Str :=
  replaceAllF m repl s.length s

/-- `updateRange` (src/updates.js:466-468):
`range.replace(/[0-9]+\.[0-9]+\.[0-9]+(-.+)?/g, version)`. -/
def updateRange (range version : Str) : Str :=
  replaceAll matchVerAt version range

/-- Strip an expected literal off the front of a string. -/
def dropLit : Str → Str → Option Str
  | [], s => some s
  | _ :: _, [] => none
  | c :: l, d :: s => if c = d then dropLit l s else none

/-- One attempt of the regex `new RegExp(`"name": +"old"`, "g")` built in
`updatePackageJson` (src/updates.js:459), anchored at the start of `s`:
the literal `"name":`, one or more spaces, then the literal `"old"`.
`esc` (src/updates.js:37) escapes every regex metacharacter in name and
old, so they match literally, which is how they are matched here.
Returns the length of the match. -/
def matchDepAt (name old : Str) (s : Str) : Option Nat :=
  match dropLit ('"' :: name ++ ['"', ':']) s with
  | none => none
  | some r =>
    let sp := r.takeWhile (fun c => c = ' ')
    if sp = [] then none
    else
      match dropLit ('"' :: old ++ ['"']) (r.drop sp.length) with
      | none => none
      | some _ => some (name.length + 3 + sp.length + old.length + 2)

/-- The replacement string `"name": "new"`. -/
def depReplacement (name newv : Str) : Str :=
  '"' :: name ++ ['"', ':', ' ', '"'] ++ newv ++ ['"']

/-- One pass of the loop body of `updatePackageJson`
(src/updates.js:457-461) for a single dependency. -/
def replaceDepAll (name old newv : Str) (s : Str) : Str :=
  replaceAll (matchDepAt name old) (depReplacement name newv) s

/-- One resolved dependency as `updatePackageJson` sees it: its section
(`type`), name, old range and new range.  The section is carried by the
key but, notably, never used by the replacement. -/
structure DepEntry where
  type : Str
  name : Str
  old : Str
  new : Str

/-- `updatePackageJson` (src/updates.js:454-464): for each resolved
dependency, globally replace `"name": +"old"` by `"name": "new"` in the
manifest text. -/
def updatePackageJson (pkgStr : Str) (deps : List DepEntry) : Str :=
  deps.foldl (fun acc d => replaceDepAll d.name d.old d.new acc) pkgStr

/-- The per-dependency tail of `main` (src/updates.js:689-698): compute the
new version, rewrite the range, and drop the dependency (`none`) when the
version is falsy or the rewritten range equals the old one. -/
def resolveDep (allowDowngrade : MixedArg) (data : PackageData) (opts : Opts) :
    Except Unit (Option Str) :=
  match findNewVersion allowDowngrade data opts with
  | .error e => .error e
  | .ok none => .ok none
  | .ok (some nv) =>
    let newStr := match nv with
      | .star => "*".data
      | .ver v => formatSemVer v
    let newRange := updateRange opts.range newStr
    if opts.range = newRange then .ok none else .ok (some newRange)

/-! ## The fetch fan-out (`get` / `main`) -/

/-- The outcome of one `fetch` call against one registry. -/
inductive FetchOutcome where
  | ok (d : PackageData)
  | httpErr (status : Nat)
  | netThrow

/-- The fallback fetch against the default registry
(src/updates.js:331-338): a success returns the data, a non-ok status
throws, and a rejected fetch propagates. -/
def retryDefault : FetchOutcome → Except Unit PackageData
  | .ok d => .ok d
  | .httpErr _ => .error ()
  | .netThrow => .error ()

/-- `get` (src/updates.js:314-339) for one dependency.  `registryIsDefault`
says whether the effective registry for this package is the default one;
`res` is the outcome against it and `fallback` the outcome of the one-time
retry against the default registry (only consulted when the effective
registry is a custom one). -/
def getModel (registryIsDefault : Bool) (res fallback : FetchOutcome) :
    Except Unit PackageData :=
  match res with
  | .netThrow => if registryIsDefault then .error () else retryDefault fallback
  | .ok d => .ok d
  | .httpErr _ => if registryIsDefault then .error () else retryDefault fallback

/-- One dependency's fetch environment. -/
structure FetchEntry where
  registryIsDefault : Bool
  res : FetchOutcome
  fallback : FetchOutcome

/-- The fan-out in `main` (src/updates.js:663-667): `Promise.all` over the
per-dependency `get` calls; a single rejection rejects the join, which
`main().catch(finish)` turns into an abort of the whole run. -/
def fetchAll : List FetchEntry → Except Unit (List PackageData)
  | [] => .ok []
  | e :: rest =>
    match getModel e.registryIsDefault e.res e.fallback with
    | .error er => .error er
    | .ok d =>
      match fetchAll rest with
      | .error er => .error er
      | .ok ds => .ok (d :: ds)

/-! ## Lemmas about global regex replacement -/

/-- No position of `s` starts a match of `m`. -/
def noMatchB (m : Str → Option Nat) : Str → Bool
  | [] => true
  | c :: rest => (m (c :: rest)).isNone && noMatchB m rest

/-- No position inside the prefix `a` (followed by `t`) starts a match. -/
def cleanB (m : Str → Option Nat) : Str → Str → Bool
  | [], _ => true
  | c :: a, t => (m (c :: (a ++ t))).isNone && cleanB m a t


theorem replaceAllF_congr (m : Str → Option Nat) (repl : Str) :
    ∀ fuel fuel' s, s.length ≤ fuel → s.length ≤ fuel' →
    replaceAllF m repl fuel s = replaceAllF m repl fuel' s := by
  intro fuel
  induction fuel with
  | zero =>
    intro fuel' s h1 h2
    cases s with
    | nil => cases fuel' <;> rfl
    | cons c rest => simp at h1
  | succ f ih =>
    intro fuel' s h1 h2
    cases s with
    | nil => cases fuel' <;> rfl
    | cons c rest =>
      cases fuel' with
      | zero => simp at h2
      | succ f2 =>
        simp only [List.length_cons] at h1 h2
        simp only [replaceAllF]
        cases hm : m (c :: rest) with
        | none =>
          simp only
          rw [ih f2 rest (by omega) (by omega)]
        | some n =>
          simp only
          by_cases hn : n = 0
          · subst hn
            rw [if_pos rfl, if_pos rfl, ih f2 rest (by omega) (by omega)]
          · rw [if_neg hn, if_neg hn]
            have hl : ((c :: rest).drop n).length ≤ f := by
              simp [List.length_drop]; omega
            have hl2 : ((c :: rest).drop n).length ≤ f2 := by
              simp [List.length_drop]; omega
            rw [ih f2 _ hl hl2]

theorem replaceAll_noMatch (m : Str → Option Nat) (repl : Str) :
    ∀ s, noMatchB m s = true → replaceAll m repl s = s := by
  intro s
  induction s with
  | nil => intro h; rfl
  | cons c rest ih =>
    intro h
    simp only [noMatchB, Bool.and_eq_true, Option.isNone_iff_eq_none] at h
    obtain ⟨h1, h2⟩ := h
    have step : replaceAll m repl (c :: rest) = c :: replaceAll m repl rest := by
      simp only [replaceAll, List.length_cons, replaceAllF, h1]
    rw [step, ih h2]

theorem replaceAll_skip (m : Str → Option Nat) (repl : Str) :
    ∀ a t, cleanB m a t = true →
    replaceAll m repl (a ++ t) = a ++ replaceAll m repl t := by
  intro a
  induction a with
  | nil => intro t h; rfl
  | cons c a ih =>
    intro t h
    simp only [cleanB, Bool.and_eq_true, Option.isNone_iff_eq_none] at h
    obtain ⟨h1, h2⟩ := h
    have step : replaceAll m repl (c :: (a ++ t)) = c :: replaceAll m repl (a ++ t) := by
      simp only [replaceAll, List.length_cons, replaceAllF, h1]
    rw [List.cons_append, step, ih t h2, List.cons_append]

theorem replaceAll_match (m : Str → Option Nat) (repl : Str) (t : Str) (n : Nat)
    (hne : t ≠ []) (hm : m t = some n) (hpos : 0 < n) :
    replaceAll m repl t = repl ++ replaceAll m repl (t.drop n) := by
  cases t with
  | nil => exact absurd rfl hne
  | cons c rest =>
    have hn0 : n ≠ 0 := by omega
    simp only [replaceAll, List.length_cons, replaceAllF, hm, if_neg hn0]
    have hl : ((c :: rest).drop n).length ≤ rest.length := by
      simp [List.length_drop]; omega
    exact congrArg (repl ++ ·)
      (replaceAllF_congr m repl rest.length ((c :: rest).drop n).length _ hl (le_refl _))

/-! ## Claim C6: `updateRange` -/

/-- C6: for a range containing no version-like substring, `updateRange`
returns it unchanged; for a range that decomposes as `a ++ mtch ++ b` where
`mtch` is the unique version-like match (no match starts inside `a` or
`b`), `updateRange` replaces exactly `mtch` by the new version, preserving
`a` and `b` verbatim. -/
theorem c6_updateRange_unique_replace :
    (∀ range version : Str, noMatchB matchVerAt range = true →
      updateRange range version = range) ∧
    (∀ a mtch b version : Str, mtch ≠ [] →
      matchVerAt (mtch ++ b) = some mtch.length →
      cleanB matchVerAt a (mtch ++ b) = true →
      noMatchB matchVerAt b = true →
      updateRange (a ++ (mtch ++ b)) version = a ++ version ++ b) := by
  constructor
  · intro range version h
    exact replaceAll_noMatch _ _ range h
  · intro a mtch b version hne hm hclean hnm
    unfold updateRange
    rw [replaceAll_skip _ _ a (mtch ++ b) hclean]
    rw [replaceAll_match _ _ (mtch ++ b) mtch.length
      (fun hc => hne (List.append_eq_nil.mp hc).1) hm (List.length_pos.mpr hne)]
    rw [List.drop_left]
    rw [replaceAll_noMatch _ _ b hnm]
    simp

/-- Witness for C6 at `"^1.2.3"` → `"^2.0.0"` and at the matchless `"x"`. -/
theorem c6_updateRange_unique_replace_witness :
    updateRange ("^".data ++ ("1.2.3".data ++ [])) "2.0.0".data =
      "^".data ++ "2.0.0".data ++ [] ∧
    updateRange "x".data "2.0.0".data = "x".data :=
  ⟨c6_updateRange_unique_replace.2 "^".data "1.2.3".data [] "2.0.0".data
      (by decide) (by decide) (by decide) (by decide),
    c6_updateRange_unique_replace.1 "x".data "2.0.0".data (by decide)⟩

/-! ## Claim C7: `updatePackageJson` -/

/-- C7 counterexample: with the same name and old specifier in two
sections and only the `dependencies` entry resolved, `updatePackageJson`
rewrites both sections (its regex is global over the whole text and never
consults the section), so bytes outside the resolved dependency's own
section change. -/
theorem c7_updatePackageJson_cex :
    updatePackageJson
        ("\x7b\"dependencies\":\x7b\"a\": \"1.0.0\"\x7d,\"devDependencies\":\x7b\"a\": \"1.0.0\"\x7d\x7d").data
        [⟨"dependencies".data, "a".data, "1.0.0".data, "2.0.0".data⟩] =
      ("\x7b\"dependencies\":\x7b\"a\": \"2.0.0\"\x7d,\"devDependencies\":\x7b\"a\": \"2.0.0\"\x7d\x7d").data ∧
    ("\x7b\"dependencies\":\x7b\"a\": \"2.0.0\"\x7d,\"devDependencies\":\x7b\"a\": \"2.0.0\"\x7d\x7d").data ≠
      ("\x7b\"dependencies\":\x7b\"a\": \"2.0.0\"\x7d,\"devDependencies\":\x7b\"a\": \"1.0.0\"\x7d\x7d").data := by
  exact ⟨rfl, by decide⟩

/-- C7 amended: the patcher replaces every occurrence of
`"name": +"old"` anywhere in the manifest text (not only in the
dependency's own section); when the pattern occurs exactly once, the
result is the original text with only that occurrence replaced by
`"name": "new"` and every byte outside it preserved verbatim. -/
theorem c7_updatePackageJson_amended :
    ∀ (a mtch b : Str) (d : DepEntry), mtch ≠ [] →
      matchDepAt d.name d.old (mtch ++ b) = some mtch.length →
      cleanB (matchDepAt d.name d.old) a (mtch ++ b) = true →
      noMatchB (matchDepAt d.name d.old) b = true →
      updatePackageJson (a ++ (mtch ++ b)) [d] =
        a ++ depReplacement d.name d.new ++ b := by
  intro a mtch b d hne hm hclean hnm
  show replaceDepAll d.name d.old d.new (a ++ (mtch ++ b)) = _
  unfold replaceDepAll
  rw [replaceAll_skip _ _ a (mtch ++ b) hclean]
  rw [replaceAll_match _ _ (mtch ++ b) mtch.length
    (fun hc => hne (List.append_eq_nil.mp hc).1) hm (List.length_pos.mpr hne)]
  rw [List.drop_left]
  rw [replaceAll_noMatch _ _ b hnm]
  simp

/-- Witness for the amended C7 on a one-section manifest. -/
theorem c7_updatePackageJson_amended_witness :
    updatePackageJson
        (("\x7b").data ++ ("\"a\": \"1.0.0\"".data ++ ("\x7d").data))
        [⟨"dependencies".data, "a".data, "1.0.0".data, "2.0.0".data⟩] =
      ("\x7b").data ++ depReplacement "a".data "2.0.0".data ++ ("\x7d").data :=
  c7_updatePackageJson_amended ("\x7b").data "\"a\": \"1.0.0\"".data ("\x7d").data
    ⟨"dependencies".data, "a".data, "1.0.0".data, "2.0.0".data⟩
    (by decide) (by decide) (by decide) (by decide)

/-! ## Claim C10: the `"*"` fast path -/

/-- C10: for the exact range `"*"`, `findNewVersion` returns `"*"` before
looking at the catalog, dist-tags or policy, and `main` then drops the
dependency: `updateRange` leaves the range unchanged, so the result is
no-change for every catalog and policy. -/
theorem c10_star_range_noop :
    ∀ (ad : MixedArg) (data : PackageData) (opts : Opts), opts.range = "*".data →
      findNewVersion ad data opts = .ok (some .star) ∧
      resolveDep ad data opts = .ok none := by
  intro ad data opts h
  have h1 : findNewVersion ad data opts = .ok (some .star) := by
    unfold findNewVersion
    rw [if_pos h]
  refine ⟨h1, ?_⟩
  unfold resolveDep
  rw [h1, h]
  rfl

/-- Witness for C10 at a concrete catalog. -/
theorem c10_star_range_noop_witness :
    findNewVersion .disabled ⟨"p".data, ["9.9.9".data], none, "9.9.9".data⟩
        ⟨false, false, false, [.patch], "*".data⟩ = .ok (some .star) ∧
      resolveDep .disabled ⟨"p".data, ["9.9.9".data], none, "9.9.9".data⟩
        ⟨false, false, false, [.patch], "*".data⟩ = .ok none :=
  c10_star_range_noop _ _ _ rfl

/-! ## Claim C8: fetch isolation -/

/-- C8 counterexample: a default-registry fetch failure for the first
dependency rejects the `Promise.all` join, so the second dependency —
whose own fetch succeeded — is not resolved either: the whole run aborts
with an error. -/
theorem c8_fetch_failure_aborts_run :
    fetchAll [⟨true, .netThrow, .netThrow⟩,
      ⟨true, .ok ⟨"b".data, ["1.0.0".data], none, "1.0.0".data⟩, .netThrow⟩] =
      .error () := rfl

/-- C8 amended: a fetch failure (rejection or HTTP error) against a
custom registry with a successful default-registry fallback is isolated —
that dependency still resolves, and if every dependency's `get` succeeds
the join succeeds; but any `get` that throws (default-registry failure,
or a failed fallback) rejects the join and aborts resolution of all
dependencies. -/
theorem c8_fetch_fallback_isolated :
    (∀ d : PackageData, getModel false .netThrow (.ok d) = .ok d) ∧
    (∀ (d : PackageData) (st : Nat), getModel false (.httpErr st) (.ok d) = .ok d) ∧
    (∀ l : List FetchEntry,
      (∀ e ∈ l, ∃ d, getModel e.registryIsDefault e.res e.fallback = .ok d) →
      ∃ ds, fetchAll l = .ok ds) := by
  refine ⟨fun d => rfl, fun d st => rfl, ?_⟩
  intro l
  induction l with
  | nil => intro _; exact ⟨[], rfl⟩
  | cons e rest ih =>
    intro h
    obtain ⟨d, hd⟩ := h e (by simp)
    obtain ⟨ds, hds⟩ := ih (fun x hx => h x (by simp [hx]))
    refine ⟨d :: ds, ?_⟩
    unfold fetchAll
    rw [hd, hds]

/-- Witness for the amended C8: a custom-registry failure with a working
fallback alongside a healthy dependency; both resolve. -/
theorem c8_fetch_fallback_isolated_witness :
    ∃ ds, fetchAll [⟨false, .netThrow, .ok ⟨"a".data, [], none, [] ⟩⟩,
      ⟨true, .ok ⟨"b".data, [], none, []⟩, .netThrow⟩] = .ok ds :=
  c8_fetch_fallback_isolated.2.2 _ (by
    intro e he
    simp only [List.mem_cons, List.not_mem_nil, or_false] at he
    rcases he with he | he <;> subst he
    · exact ⟨_, rfl⟩
    · exact ⟨_, rfl⟩)

/-! ## Lemmas about `semverDiff` and coercion -/

theorem semverDiff_refl {a : SemVer} : semverDiff a a = none := by
  unfold semverDiff
  rw [if_pos sCmp_refl]

theorem semverDiff_none_iff {a b : SemVer} : semverDiff a b = none ↔ a = b := by
  constructor
  · intro h
    unfold semverDiff at h
    by_cases h1 : sCmp a b = .eq
    · exact sCmp_eq_iff.mp h1
    rw [if_neg h1] at h
    by_cases h2 : a.major = b.major
    · rw [if_neg (show ¬a.major ≠ b.major from fun hn => hn h2)] at h
      by_cases h3 : a.minor = b.minor
      · rw [if_neg (show ¬a.minor ≠ b.minor from fun hn => hn h3)] at h
        by_cases h4 : a.patch = b.patch
        · rw [if_neg (show ¬a.patch ≠ b.patch from fun hn => hn h4)] at h
          by_cases h5 : (!(a.pre.isEmpty && b.pre.isEmpty)) = true
          · rw [if_pos h5] at h; exact Option.noConfusion h
          · have hpre : a.pre = [] ∧ b.pre = [] := by
              revert h5
              cases hpa : a.pre <;> cases hpb : b.pre <;> simp [List.isEmpty]
            cases a; cases b; simp_all
        · rw [if_pos h4] at h; exact Option.noConfusion h
      · rw [if_pos h3] at h; exact Option.noConfusion h
    · rw [if_pos h2] at h; exact Option.noConfusion h
  · intro h; subst h; exact semverDiff_refl

theorem semverDiff_classify {a b : SemVer} {d : DiffClass}
    (h : semverDiff a b = some d) :
    (a.major ≠ b.major ∧ (d = .premajor ∨ d = .major)) ∨
    (a.major = b.major ∧ a.minor ≠ b.minor ∧ (d = .preminor ∨ d = .minor)) ∨
    (a.major = b.major ∧ a.minor = b.minor ∧ a.patch ≠ b.patch ∧
      (d = .prepatch ∨ d = .patch)) ∨
    (a.major = b.major ∧ a.minor = b.minor ∧ a.patch = b.patch ∧
      d = .prerelease ∧ ¬(a.pre = [] ∧ b.pre = [])) := by
  unfold semverDiff at h
  by_cases h1 : sCmp a b = .eq
  · rw [if_pos h1] at h; exact Option.noConfusion h
  rw [if_neg h1] at h
  by_cases h2 : a.major = b.major
  · rw [if_neg (show ¬a.major ≠ b.major from fun hn => hn h2)] at h
    by_cases h3 : a.minor = b.minor
    · rw [if_neg (show ¬a.minor ≠ b.minor from fun hn => hn h3)] at h
      by_cases h4 : a.patch = b.patch
      · rw [if_neg (show ¬a.patch ≠ b.patch from fun hn => hn h4)] at h
        by_cases h5 : (!(a.pre.isEmpty && b.pre.isEmpty)) = true
        · rw [if_pos h5] at h
          obtain rfl := Option.some.inj h
          refine Or.inr (Or.inr (Or.inr ⟨h2, h3, h4, rfl, ?_⟩))
          rintro ⟨hpa, hpb⟩
          simp [hpa, hpb, List.isEmpty] at h5
        · rw [if_neg h5] at h; exact Option.noConfusion h
      · rw [if_pos h4] at h
        obtain rfl := Option.some.inj h
        refine Or.inr (Or.inr (Or.inl ⟨h2, h3, h4, ?_⟩))
        split_ifs <;> simp
    · rw [if_pos h3] at h
      obtain rfl := Option.some.inj h
      refine Or.inr (Or.inl ⟨h2, h3, ?_⟩)
      split_ifs <;> simp
  · rw [if_pos h2] at h
    obtain rfl := Option.some.inj h
    refine Or.inl ⟨h2, ?_⟩
    split_ifs <;> simp

theorem semverDiff_release {a b : SemVer} (ha : a.pre = []) (hb : b.pre = [])
    {d : DiffClass} (h : semverDiff a b = some d) :
    d = .major ∨ d = .minor ∨ d = .patch := by
  rcases semverDiff_classify h with ⟨_, hd | hd⟩ | ⟨_, _, hd | hd⟩ |
      ⟨_, _, _, hd | hd⟩ | ⟨_, _, _, _, hpre⟩
  all_goals first
    | (subst hd
       first
        | exact Or.inl rfl
        | exact Or.inr (Or.inl rfl)
        | exact Or.inr (Or.inr rfl)
        | (exfalso
           unfold semverDiff at h
           split_ifs at h with g1 g2 g3 g4 g5 <;>
             simp_all [List.isEmpty]))
    | exact absurd ⟨ha, hb⟩ hpre

theorem coerceRun_pre {s : Str} {b : SemVer} (h : coerceRun s = some b) :
    b.pre = [] := by
  unfold coerceRun at h
  repeat' split at h
  all_goals first
    | exact Option.noConfusion h
    | (obtain rfl := Option.some.inj h; rfl)

theorem rangeToVersion_pre {r : Str} {b : SemVer} (h : rangeToVersion r = some b) :
    b.pre = [] := by
  unfold rangeToVersion at h
  induction r with
  | nil => exact Option.noConfusion h
  | cons c rest ih =>
    unfold coerceFrom at h
    split_ifs at h with hd
    · exact coerceRun_pre h
    · exact ih h

/-! ## Totality of the scan for a coercible base -/

theorem fvLoop_some (ht : Bool) (time : List (Str × Option Int))
    (ug up ur : Bool) (sv : List DiffClass) :
    ∀ (vs : List Str) (t0 : SemVer) (d : Int),
      (∀ s ∈ vs, (parseSemVer s).isSome = true) →
      ∃ w, fvLoop ht time ug up ur sv vs (some t0) d = .ok (some w) := by
  intro vs
  induction vs with
  | nil => intro t0 d _; exact ⟨t0, rfl⟩
  | cons s rest ih =>
    intro t0 d h
    have hs : (parseSemVer s).isSome = true := h s (by simp)
    obtain ⟨p, hp⟩ := Option.isSome_iff_exists.mp hs
    have hrest : ∀ x ∈ rest, (parseSemVer x).isSome = true :=
      fun x hx => h x (by simp [hx])
    simp only [fvLoop, hp]
    by_cases c1 : (!p.pre.isEmpty && (!up || ur)) = true
    · rw [if_pos c1]; exact ih t0 d hrest
    · rw [if_neg c1]
      cases hd : semverDiff t0 p with
      | none => simp only [hd]; exact ih t0 d hrest
      | some diff =>
        simp only [hd]
        by_cases c2 : (!memB diff sv) = true
        · rw [if_pos c2]; exact ih t0 d hrest
        · rw [if_neg c2]
          by_cases c3 : (ug || !ht) = true
          · rw [if_pos c3]
            by_cases c4 : sCmp (coerceVer p) t0 ≠ .lt
            · rw [if_pos c4]; exact ih p d hrest
            · rw [if_neg c4]; exact ih t0 d hrest
          · rw [if_neg c3]
            cases hl : lookupTime time s with
            | none => simp only [hl]; exact ih t0 d hrest
            | some date =>
              simp only [hl]
              by_cases c5 : (decide (date ≥ 0) && decide (date > d)) = true
              · rw [if_pos c5]; exact ih p date hrest
              · rw [if_neg c5]; exact ih t0 d hrest

theorem findVersion_some (data : PackageData) (opts : Opts) (t0 : SemVer)
    (hco : rangeToVersion opts.range = some t0) :
    ∃ w, findVersion data
      (data.versions.filter (fun s => (parseSemVer s).isSome)) opts =
      .ok (some w) := by
  unfold findVersion
  rw [hco]
  exact fvLoop_some _ _ _ _ _ _ _ t0 0
    (fun s hs => (List.mem_filter.mp hs).2)

/-- Bridge: for a non-`"*"`, coercible range in latest mode, once the scan
produced `v`, `findNewVersion` is the line 540-584 cascade. -/
theorem findNewVersion_eq_cascade (ad : MixedArg) (data : PackageData)
    (opts : Opts) (old v : SemVer)
    (hstar : ¬(opts.range = "*".data)) (hg : opts.useGreatest = false)
    (hco : rangeToVersion opts.range = some old)
    (hfv : findVersion data
      (data.versions.filter (fun s => (parseSemVer s).isSome)) opts =
      .ok (some v)) :
    findNewVersion ad data opts =
      fnvCascade ad data.name opts (isRangePrerelease opts.range)
        (!v.pre.isEmpty) (isVersionPrerelease data.latest) old v
        (parseSemVer data.latest) := by
  unfold findNewVersion
  rw [if_neg hstar]
  simp [hfv, hg, hco]

/-- `fnvCascade` under the default flags (no prerelease anchor or flag, no
release-only) with a release latest tag (`latestIsPre = false`) that is not
blocked by the line 563 check: only the downgrade guard and the final
return remain. -/
theorem fnvCascade_default (ad : MixedArg) (name : Str) (opts : Opts)
    (nIsPre : Bool) (old v latest : SemVer)
    (hrel : opts.useRel = false) (hpre : opts.usePre = false)
    (hblock : (match semverDiff old latest with
      | some d => decide (d ≠ DiffClass.prerelease) && !memB (stripPre d) opts.semvers
      | none => false) = false) :
    fnvCascade ad name opts false nIsPre false old v (some latest) =
      (if sCmp latest old = .lt then
        (if ad.allows name = true then Except.ok (some (.ver latest))
         else .ok none)
       else .ok (some (.ver latest))) := by
  unfold fnvCascade
  rw [hrel, hpre]
  simp only [decide_not] at hblock
  simp [hblock]

/-! ## Claim C9: totality of resolution -/

/-- C9 counterexample: `"x"` is a valid semver range (it normalises to
`"*"` but is not the literal string `"*"`), it cannot be coerced to a
concrete version, and `findNewVersion` reaches the error state — the null
base flows into `semver.diff` inside the scan — instead of treating the
base as `0.0.0`. -/
theorem c9_uncoercible_range_errors :
    rangeToVersion "x".data = none ∧
    findNewVersion .disabled
      ⟨"p".data, ["1.0.0".data], some [("1.0.0".data, some 1)], "1.0.0".data⟩
      ⟨false, false, false, [.patch, .minor, .major], "x".data⟩ =
      .error () := ⟨rfl, rfl⟩

/-- C9 amended: resolution is total for ranges that coerce to a concrete
version (the literal `"*"` aside, which short-circuits): with a parseable
latest tag, `findNewVersion` always returns a version or no-change and
never reaches an error state.  For valid but un-coercible ranges such as
`"x"` the null base is fed to semver operations and the run errors. -/
theorem c9_resolution_total_amended :
    ∀ (ad : MixedArg) (data : PackageData) (opts : Opts) (old : SemVer),
      rangeToVersion opts.range = some old →
      (parseSemVer data.latest).isSome = true →
      ∃ r, findNewVersion ad data opts = .ok r := by
  intro ad data opts old hco hlat
  by_cases hstar : opts.range = "*".data
  · exact ⟨some .star, by unfold findNewVersion; rw [if_pos hstar]⟩
  obtain ⟨w, hw⟩ := findVersion_some data opts old hco
  by_cases hg : opts.useGreatest = true
  · refine ⟨some (.ver w), ?_⟩
    unfold findNewVersion
    rw [if_neg hstar]
    simp [hw, hg]
  · have hg2 : opts.useGreatest = false := by
      revert hg; cases opts.useGreatest <;> simp
    rw [findNewVersion_eq_cascade ad data opts old w hstar hg2 hco hw]
    obtain ⟨latest, hl⟩ := Option.isSome_iff_exists.mp hlat
    unfold fnvCascade
    simp only [hl]
    split_ifs <;> exact ⟨_, rfl⟩

/-- Witness for the amended C9. -/
theorem c9_resolution_total_amended_witness :
    ∃ r, findNewVersion .disabled
      ⟨"p".data, ["1.0.0".data], some [("1.0.0".data, some 1)], "1.0.0".data⟩
      ⟨false, false, false, [.patch, .minor, .major], "^1.0.0".data⟩ = .ok r :=
  c9_resolution_total_amended .disabled _ _ ⟨1, 0, 0, []⟩ rfl rfl

/-! ## Claim C5: a prerelease tagged latest is authoritative -/

/-- C5 counterexample: for a prerelease-anchored old range the latest-tag
preference does not apply even though every condition of the claim holds:
with range `^3.0.0-1`, catalog `3.0.0-3` (published later) and `3.0.0-2`
(published earlier, tagged latest), the latest tag is a prerelease,
release-only is off, the prerelease flag is off, the tag differs from the
step-4 candidate `3.0.0-3` and its diff class from the base (`prerelease`)
is in the extended accepted set — yet the line 543 branch
(`oldIsPre && newIsPre`) returns the candidate before the latest-tag
reconciliation is ever reached. -/
theorem c5_latest_prerelease_override_cex :
    findNewVersion .disabled
      ⟨"x".data, ["3.0.0-3".data, "3.0.0-2".data],
        some [("3.0.0-3".data, some 100), ("3.0.0-2".data, some 50)],
        "3.0.0-2".data⟩
      ⟨false, false, false, [.patch, .minor, .major], "^3.0.0-1".data⟩ =
      .ok (some (.ver ⟨3, 0, 0, [.num 3]⟩)) ∧
    isVersionPrerelease "3.0.0-2".data = true ∧
    rangeToVersion "^3.0.0-1".data = some ⟨3, 0, 0, []⟩ ∧
    semverDiff ⟨3, 0, 0, []⟩ ⟨3, 0, 0, [.num 2]⟩ = some .prerelease ∧
    memB .prerelease (extendSemvers [.patch, .minor, .major] true) = true ∧
    (⟨3, 0, 0, [.num 3]⟩ : SemVer) ≠ ⟨3, 0, 0, [.num 2]⟩ :=
  ⟨rfl, rfl, rfl, rfl, rfl, by decide⟩

/-- C5 amended: restricted to old ranges that are not themselves
prerelease anchors.  When the latest dist-tag is a prerelease,
release-only mode is off, the prerelease policy flag is off and the old
range is no prerelease, `findNewVersion` returns the latest tag whenever
the line 563 check lets it through: the diff from the base is null, bare
`prerelease`, or a class whose `pre`-stripped form is in the policy list.
For a prerelease-anchored range the line 543 branch returns the step-4
candidate first (see the counterexample). -/
theorem c5_latest_prerelease_override :
    ∀ (ad : MixedArg) (data : PackageData) (opts : Opts) (old latest : SemVer),
      opts.useGreatest = false → opts.useRel = false → opts.usePre = false →
      isRangePrerelease opts.range = false →
      opts.range ≠ "*".data →
      rangeToVersion opts.range = some old →
      parseSemVer data.latest = some latest →
      latest.pre ≠ [] →
      (semverDiff old latest = none ∨ semverDiff old latest = some .prerelease ∨
        (∃ d, semverDiff old latest = some d ∧
          memB (stripPre d) opts.semvers = true)) →
      findNewVersion ad data opts = .ok (some (.ver latest)) := by
  intro ad data opts old latest hg hrel hpre hrpre hstar hco hl hlpre hreach
  obtain ⟨w, hw⟩ := findVersion_some data opts old hco
  rw [findNewVersion_eq_cascade ad data opts old w hstar hg hco hw]
  have hlp : isVersionPrerelease data.latest = true := by
    unfold isVersionPrerelease
    rw [hl]
    cases hpl : latest.pre with
    | nil => exact absurd hpl hlpre
    | cons x xs => simp [hpl, List.isEmpty]
  rcases hreach with hr | hr | ⟨d, hd, hmem⟩
  · simp [fnvCascade, hrel, hpre, hrpre, hl, hlp, hr]
  · simp [fnvCascade, hrel, hpre, hrpre, hl, hlp, hr]
  · simp [fnvCascade, hrel, hpre, hrpre, hl, hlp, hd, hmem]

/-- Witness for C5: the spec's own scenario — old range `"^3.0.0"`,
catalog `"3.0.0-2"` tagged latest, latest mode, no prerelease flag
resolves to `"^3.0.0-2"`. -/
theorem c5_latest_prerelease_override_witness :
    findNewVersion .disabled
      ⟨"x".data, ["3.0.0-2".data], some [("3.0.0-2".data, some 50)], "3.0.0-2".data⟩
      ⟨false, false, false, [.patch, .minor, .major], "^3.0.0".data⟩ =
      .ok (some (.ver ⟨3, 0, 0, [.num 2]⟩)) ∧
    resolveDep .disabled
      ⟨"x".data, ["3.0.0-2".data], some [("3.0.0-2".data, some 50)], "3.0.0-2".data⟩
      ⟨false, false, false, [.patch, .minor, .major], "^3.0.0".data⟩ =
      .ok (some "^3.0.0-2".data) :=
  ⟨c5_latest_prerelease_override .disabled _ _ ⟨3, 0, 0, []⟩ ⟨3, 0, 0, [.num 2]⟩
      rfl rfl rfl rfl (by decide) rfl rfl (by decide)
      (Or.inr (Or.inl rfl)),
    rfl⟩

/-! ## Claim C2: no silent downgrade -/

/-- C2 counterexample: under a minor ceiling with a major-bumped latest
tag, the line 563 check falls back to the scan candidate, which is chosen
by publish time and here is `1.4.0` — strictly below the coerced old
version `1.5.0` — although the old range is no prerelease and downgrades
were never allowed. -/
theorem c2_no_downgrade_cex :
    findNewVersion .disabled
      ⟨"x".data, ["1.5.0".data, "1.4.0".data, "2.0.0".data],
        some [("1.5.0".data, some 100), ("1.4.0".data, some 99),
          ("2.0.0".data, some 200)],
        "2.0.0".data⟩
      ⟨false, false, false, [.patch, .minor], "^1.5.0".data⟩ =
      .ok (some (.ver ⟨1, 4, 0, []⟩)) ∧
    sCmp ⟨1, 4, 0, []⟩ ⟨1, 5, 0, []⟩ = .lt ∧
    rangeToVersion "^1.5.0".data = some ⟨1, 5, 0, []⟩ ∧
    isRangePrerelease "^1.5.0".data = false := ⟨rfl, rfl, rfl, rfl⟩

/-- C2 amended: under the full (major) ceiling, with the prerelease and
release-only flags off, a non-prerelease old range and a non-prerelease
latest tag, `findNewVersion` with downgrades not allowed never returns a
version strictly below the coerced old version (a lower latest tag yields
no-change).  Under a restricted ceiling, a latest tag blocked by the
ceiling makes the code fall back to the publish-time candidate, which can
be lower (see the counterexample). -/
theorem c2_no_downgrade_amended :
    ∀ (ad : MixedArg) (data : PackageData) (opts : Opts) (old latest v : SemVer),
      opts.semvers = [.patch, .minor, .major] →
      opts.usePre = false → opts.useRel = false → opts.useGreatest = false →
      isRangePrerelease opts.range = false →
      rangeToVersion opts.range = some old →
      parseSemVer data.latest = some latest →
      latest.pre = [] →
      ad.allows data.name = false →
      findNewVersion ad data opts = .ok (some (.ver v)) →
      sCmp v old ≠ .lt := by
  intro ad data opts old latest v hsem hpre hrel hg hrpre hco hl hlrel had hres
  by_cases hstar : opts.range = "*".data
  · rw [(c10_star_range_noop ad data opts hstar).1] at hres
    simp at hres
  obtain ⟨w, hw⟩ := findVersion_some data opts old hco
  rw [findNewVersion_eq_cascade ad data opts old w hstar hg hco hw] at hres
  have hop : old.pre = [] := rangeToVersion_pre hco
  have hlp : isVersionPrerelease data.latest = false := by
    unfold isVersionPrerelease
    simp [hl, hlrel]
  have hblock : (match semverDiff old latest with
      | some d => d ≠ DiffClass.prerelease && !memB (stripPre d) opts.semvers
      | none => false) = false := by
    cases hd : semverDiff old latest with
    | none => rfl
    | some d =>
      rcases semverDiff_release hop hlrel hd with rfl | rfl | rfl <;>
        simp [stripPre, memB, hsem]
  rw [hrpre, hlp, hl] at hres
  rw [fnvCascade_default ad data.name opts (!w.pre.isEmpty) old w latest hrel hpre hblock] at hres
  by_cases hlt : sCmp latest old = .lt
  · rw [if_pos hlt, if_neg (by simp [had])] at hres
    simp at hres
  · rw [if_neg hlt] at hres
    simp at hres
    obtain rfl := hres
    exact hlt

/-! ## Claim C4: idempotence of resolution -/

/-- C4 counterexample: with catalog `3.0.0-1` (published later) and
`3.0.0-2` (published earlier but tagged latest) and the default policy,
resolving `"^3.0.0"` yields `"^3.0.0-2"` (latest-tag prerelease override),
but resolving `"^3.0.0-2"` against the unchanged catalog yields the
further change `"^3.0.0-1"` — not no-change: the now-prerelease range
turns on prerelease scanning, which picks the newest-by-timestamp
prerelease. -/
theorem c4_idempotence_cex :
    resolveDep .disabled
      ⟨"x".data, ["3.0.0-1".data, "3.0.0-2".data],
        some [("3.0.0-1".data, some 100), ("3.0.0-2".data, some 50)],
        "3.0.0-2".data⟩
      ⟨false, false, false, [.patch, .minor, .major], "^3.0.0".data⟩ =
      .ok (some "^3.0.0-2".data) ∧
    resolveDep .disabled
      ⟨"x".data, ["3.0.0-1".data, "3.0.0-2".data],
        some [("3.0.0-1".data, some 100), ("3.0.0-2".data, some 50)],
        "3.0.0-2".data⟩
      ⟨false, false, false, [.patch, .minor, .major], "^3.0.0-2".data⟩ =
      .ok (some "^3.0.0-1".data) := ⟨rfl, rfl⟩

/-- C4 amended: in the default configuration (full ceiling, prerelease and
release-only flags off), for a non-prerelease old range and a release
(non-prerelease) latest tag, any update that was applied re-resolves to the
same version: if the first resolution produced the rewritten range `r'`,
and `r'` coerces back to the latest tag, is itself no prerelease range,
is not `"*"`, and is stable under rewriting with that version (as every
ordinary operator-prefixed range is), then resolving `r'` against the
unchanged catalog yields no-change.  With prerelease ranges or results, or
a restricted ceiling, a second resolution can produce a further change. -/
theorem c4_idempotence_amended :
    ∀ (ad : MixedArg) (data : PackageData) (opts : Opts) (rnew : Str)
      (latest : SemVer),
      opts.semvers = [.patch, .minor, .major] →
      opts.usePre = false → opts.useRel = false → opts.useGreatest = false →
      isRangePrerelease opts.range = false →
      parseSemVer data.latest = some latest →
      latest.pre = [] →
      resolveDep ad data opts = .ok (some rnew) →
      rangeToVersion rnew = some latest →
      isRangePrerelease rnew = false →
      rnew ≠ "*".data →
      updateRange rnew (formatSemVer latest) = rnew →
      resolveDep ad data
        ⟨opts.usePre, opts.useRel, opts.useGreatest, opts.semvers, rnew⟩ =
        .ok none := by
  intro ad data opts rnew latest hsem hpre hrel hg hrpre hl hlrel hfirst
    hco2 hrpre2 hstar2 hstable
  obtain ⟨w, hw⟩ := findVersion_some data
    ⟨opts.usePre, opts.useRel, opts.useGreatest, opts.semvers, rnew⟩ latest hco2
  have hlp : isVersionPrerelease data.latest = false := by
    unfold isVersionPrerelease
    simp [hl, hlrel]
  have h2 : findNewVersion ad data
      ⟨opts.usePre, opts.useRel, opts.useGreatest, opts.semvers, rnew⟩ =
      .ok (some (.ver latest)) := by
    rw [findNewVersion_eq_cascade ad data
      ⟨opts.usePre, opts.useRel, opts.useGreatest, opts.semvers, rnew⟩
      latest w hstar2 hg hco2 hw]
    show fnvCascade ad data.name _ (isRangePrerelease rnew) (!w.pre.isEmpty)
      (isVersionPrerelease data.latest) latest w (parseSemVer data.latest) = _
    rw [hrpre2, hlp, hl]
    rw [fnvCascade_default ad data.name
      ⟨opts.usePre, opts.useRel, opts.useGreatest, opts.semvers, rnew⟩
      (!w.pre.isEmpty) latest w latest hrel hpre (by rw [semverDiff_refl])]
    rw [if_neg (by rw [sCmp_refl]; exact fun hc => Ordering.noConfusion hc)]
  unfold resolveDep
  simp only [h2, hstable]
  simp

/-- Witness for the amended C4: `"^1.0.0"` resolves to `"^2.0.0"` (the
latest tag), and resolving `"^2.0.0"` again yields no-change. -/
theorem c4_idempotence_amended_witness :
    resolveDep .disabled
      ⟨"x".data, ["1.0.0".data, "2.0.0".data],
        some [("1.0.0".data, some 10), ("2.0.0".data, some 20)], "2.0.0".data⟩
      ⟨false, false, false, [.patch, .minor, .major], "^2.0.0".data⟩ =
      .ok none :=
  c4_idempotence_amended .disabled
    ⟨"x".data, ["1.0.0".data, "2.0.0".data],
      some [("1.0.0".data, some 10), ("2.0.0".data, some 20)], "2.0.0".data⟩
    ⟨false, false, false, [.patch, .minor, .major], "^1.0.0".data⟩
    "^2.0.0".data ⟨2, 0, 0, []⟩
    rfl rfl rfl rfl rfl rfl rfl rfl rfl rfl (by decide) rfl

/-- Witness for the amended C2 at a concrete catalog whose latest tag
`2.0.0` is above the base `1.0.0`. -/
theorem c2_no_downgrade_amended_witness :
    sCmp ⟨2, 0, 0, []⟩ ⟨1, 0, 0, []⟩ ≠ .lt :=
  c2_no_downgrade_amended .disabled
    ⟨"x".data, ["2.0.0".data], some [("2.0.0".data, some 10)], "2.0.0".data⟩
    ⟨false, false, false, [.patch, .minor, .major], "^1.0.0".data⟩
    ⟨1, 0, 0, []⟩ ⟨2, 0, 0, []⟩ ⟨2, 0, 0, []⟩
    rfl rfl rfl rfl rfl rfl rfl rfl rfl rfl

/-! ## The ceiling invariant of the scan -/

/-- The component equalities a policy ceiling forces between the base and
any version whose diff class is accepted. -/
def ceilOk : Ceiling → SemVer → SemVer → Prop
  | .patch, a, b => a.major = b.major ∧ a.minor = b.minor
  | .minor, a, b => a.major = b.major
  | .major, _, _ => True

theorem ceilOk_refl {c : Ceiling} {a : SemVer} : ceilOk c a a := by
  cases c <;> simp [ceilOk]

theorem ceilOk_trans {c : Ceiling} {a b d : SemVer}
    (h1 : ceilOk c a b) (h2 : ceilOk c b d) : ceilOk c a d := by
  cases c <;> simp_all [ceilOk]

theorem memB_iff {d : DiffClass} : ∀ {l : List DiffClass}, memB d l = true ↔ d ∈ l := by
  intro l
  induction l with
  | nil => simp [memB]
  | cons x rest ih =>
    by_cases hx : x = d
    · simp [memB, hx]
    · have hx2 : ¬d = x := fun h => hx h.symm
      simp [memB, hx, hx2, ih]

/-- Appending never removes membership. -/
theorem memB_append {d : DiffClass} {l l2 : List DiffClass}
    (h : memB d l = true) : memB d (l ++ l2) = true := by
  rw [memB_iff] at h ⊢
  exact List.mem_append_left _ h

/-- The policy list is contained in its prerelease extension. -/
theorem memB_extend {d : DiffClass} {l : List DiffClass} {up : Bool}
    (h : memB d l = true) : memB d (extendSemvers l up) = true := by
  unfold extendSemvers
  cases up
  · exact h
  · simp only [Bool.false_eq_true, if_false, if_true]
    split_ifs <;>
      first
        | exact memB_append (memB_append (memB_append (memB_append h)))
        | exact memB_append (memB_append (memB_append h))
        | exact memB_append (memB_append h)
        | exact memB_append h

/-- A diff class accepted under a (possibly prerelease-extended) ceiling
forces the ceiling's component equalities. -/
theorem ceilStep {c : Ceiling} {up : Bool} {x y : SemVer} {d : DiffClass}
    (hd : semverDiff x y = some d)
    (hmem : memB d (extendSemvers (ceilingSemvers c) up) = true) :
    ceilOk c x y := by
  have hcls := semverDiff_classify hd
  rw [memB_iff] at hmem
  cases c <;> cases up <;>
    simp only [ceilingSemvers, extendSemvers, memB] at hmem <;>
    simp only [ceilOk] <;>
    rcases hcls with ⟨hM, hd2 | hd2⟩ | ⟨hM, hm, hd2 | hd2⟩ |
      ⟨hM, hm, hp, hd2 | hd2⟩ | ⟨hM, hm, hp, hd2, hpre⟩ <;>
    subst hd2 <;> simp_all

/-- A `pre`-prefixed or bare-`prerelease` diff class only arises when one
side has a prerelease part. -/
theorem semverDiff_pre_class {a b : SemVer} {d : DiffClass}
    (hd : semverDiff a b = some d)
    (hpc : d = .premajor ∨ d = .preminor ∨ d = .prepatch ∨ d = .prerelease) :
    ¬(a.pre = [] ∧ b.pre = []) := by
  rintro ⟨ha, hb⟩
  rcases semverDiff_release ha hb hd with rfl | rfl | rfl <;> simp at hpc

/-- Ceiling equalities plus inequality put the diff class of `(base, w)` in
the (prerelease-extended iff `up`) accepted set, provided `w` is a release
whenever `up` is off. -/
theorem mem_extend_of_ceil {c : Ceiling} {up : Bool} {base w : SemVer}
    (hbase : base.pre = []) (hceil : ceilOk c base w) (hne : w ≠ base)
    (hrel : up = false → w.pre = []) :
    ∃ d, semverDiff base w = some d ∧
      memB d (extendSemvers (ceilingSemvers c) up) = true := by
  cases hd : semverDiff base w with
  | none => exact absurd (semverDiff_none_iff.mp hd).symm hne
  | some d =>
    refine ⟨d, rfl, ?_⟩
    rw [memB_iff]
    have hcls := semverDiff_classify hd
    cases up
    · have hw : w.pre = [] := hrel rfl
      have hrels := semverDiff_release hbase hw hd
      cases c <;>
        simp only [extendSemvers, ceilingSemvers, ceilOk] at hceil ⊢ <;>
        rcases hrels with rfl | rfl | rfl <;>
        rcases hcls with ⟨hM, hd2 | hd2⟩ | ⟨hM, hm, hd2 | hd2⟩ |
          ⟨hM, hm, hp, hd2 | hd2⟩ | ⟨hM, hm, hp, hd2, hpre⟩ <;>
        simp_all
    · cases c <;>
        simp only [extendSemvers, ceilingSemvers, ceilOk, memB_iff] at hceil ⊢ <;>
        rcases hcls with ⟨hM, hd2 | hd2⟩ | ⟨hM, hm, hd2 | hd2⟩ |
          ⟨hM, hm, hp, hd2 | hd2⟩ | ⟨hM, hm, hp, hd2, hpre⟩ <;>
        subst hd2 <;> simp_all

/-- The scan preserves the ceiling invariant: started at a version
satisfying `ceilOk` (and a release when prereleases are filtered), any
result satisfies it too. -/
theorem fvLoop_class (ht : Bool) (time : List (Str × Option Int))
    (ug up ur : Bool) (c : Ceiling) (base : SemVer) :
    ∀ (vs : List Str) (tv : SemVer) (d : Int) (w : SemVer),
      ceilOk c base tv →
      ((up = false ∨ ur = true) → tv.pre = []) →
      fvLoop ht time ug up ur (extendSemvers (ceilingSemvers c) up) vs
        (some tv) d = .ok (some w) →
      ceilOk c base w ∧ ((up = false ∨ ur = true) → w.pre = []) := by
  intro vs
  induction vs with
  | nil =>
    intro tv d w hceil hrel hloop
    obtain rfl : tv = w := by
      have := hloop
      unfold fvLoop at this
      exact Option.some.inj (Except.ok.inj this)
    exact ⟨hceil, hrel⟩
  | cons s rest ih =>
    intro tv d w hceil hrel hloop
    unfold fvLoop at hloop
    cases hp : parseSemVer s with
    | none => rw [hp] at hloop; exact Except.noConfusion hloop
    | some p =>
      rw [hp] at hloop
      simp only at hloop
      by_cases c1 : (!p.pre.isEmpty && (!up || ur)) = true
      · rw [if_pos c1] at hloop
        exact ih tv d w hceil hrel hloop
      · rw [if_neg c1] at hloop
        have hprel : (up = false ∨ ur = true) → p.pre = [] := by
          intro hcond
          by_contra hne
          apply c1
          have h1 : (!p.pre.isEmpty) = true := by
            cases hpp : p.pre with
            | nil => exact absurd hpp hne
            | cons a l => simp [hpp, List.isEmpty]
          rw [h1]
          rcases hcond with hup | hur
          · rw [hup]; rfl
          · rw [hur]; simp
        cases hd : semverDiff tv p with
        | none =>
          simp only [hd] at hloop
          exact ih tv d w hceil hrel hloop
        | some diff =>
          simp only [hd] at hloop
          by_cases c2 : (!memB diff (extendSemvers (ceilingSemvers c) up)) = true
          · rw [if_pos c2] at hloop
            exact ih tv d w hceil hrel hloop
          · rw [if_neg c2] at hloop
            have hmem : memB diff (extendSemvers (ceilingSemvers c) up) = true := by
              revert c2
              cases memB diff (extendSemvers (ceilingSemvers c) up) <;> simp
            have hstep : ceilOk c base p :=
              ceilOk_trans hceil (ceilStep hd hmem)
            by_cases c3 : (ug || !ht) = true
            · rw [if_pos c3] at hloop
              by_cases c4 : sCmp (coerceVer p) tv ≠ .lt
              · rw [if_pos c4] at hloop
                exact ih p d w hstep hprel hloop
              · rw [if_neg c4] at hloop
                exact ih tv d w hceil hrel hloop
            · rw [if_neg c3] at hloop
              cases hl : lookupTime time s with
              | none =>
                simp only [hl] at hloop
                exact ih tv d w hceil hrel hloop
              | some date =>
                simp only [hl] at hloop
                by_cases c5 : (decide (date ≥ 0) && decide (date > d)) = true
                · rw [if_pos c5] at hloop
                  exact ih p date w hstep hprel hloop
                · rw [if_neg c5] at hloop
                  exact ih tv d w hceil hrel hloop

/-- Wrapper of the ceiling invariant at the `findVersion` entry point. -/
theorem findVersion_class (data : PackageData) (versions : List Str)
    (opts : Opts) (c : Ceiling) (base w : SemVer)
    (hsem : opts.semvers = ceilingSemvers c)
    (hrpre : isRangePrerelease opts.range = false)
    (hco : rangeToVersion opts.range = some base)
    (hfv : findVersion data versions opts = .ok (some w)) :
    ceilOk c base w ∧
      ((opts.usePre = false ∨ opts.useRel = true) → w.pre = []) := by
  unfold findVersion at hfv
  simp only [hrpre, hco, hsem, Bool.false_or] at hfv
  exact fvLoop_class _ _ _ _ _ c base versions base 0 w ceilOk_refl
    (fun _ => rangeToVersion_pre hco) hfv

/-- The cascade for a non-prerelease anchor: branches 2-4 (the prerelease
transitions) are dead, leaving the prerelease-flag return, the line 563
check, the release-only check, the downgrade guard and the final return. -/
theorem fnvCascade_oldRelease (ad : MixedArg) (name : Str) (opts : Opts)
    (nIsPre lIsPre : Bool) (old v : SemVer) (latestP : Option SemVer) :
    fnvCascade ad name opts false nIsPre lIsPre old v latestP =
      if (!opts.useRel && opts.usePre) = true then .ok (some (.ver v))
      else
        match latestP with
        | none => .error ()
        | some latest =>
          if (match semverDiff old latest with
              | some d => d ≠ DiffClass.prerelease &&
                  !memB (stripPre d) opts.semvers
              | none => false) = true then .ok (some (.ver v))
          else if (opts.useRel && lIsPre) = true then .ok (some (.ver v))
          else if (sCmp latest old = .lt && !lIsPre) = true then
            (if ad.allows name = true then .ok (some (.ver latest))
             else .ok none)
          else .ok (some (.ver latest)) := by
  unfold fnvCascade
  simp

/-! ## Claim C1: the returned diff class respects the policy -/

/-- C1: with a ceiling-shaped policy list, a coercible non-prerelease old
range and downgrades not allowed, any version `findNewVersion` returns
that differs from the base either has a diff class from the base inside
the accepted set — the ceiling classes, prerelease-extended exactly when
the prerelease flag is on — or is the registry's latest tag being a
prerelease (the documented latest-tag override of section 4.2 step 5). -/
theorem c1_diff_class_in_policy :
    ∀ (ad : MixedArg) (data : PackageData) (opts : Opts) (c : Ceiling)
      (base v : SemVer),
      opts.semvers = ceilingSemvers c →
      isRangePrerelease opts.range = false →
      ad.allows data.name = false →
      rangeToVersion opts.range = some base →
      findNewVersion ad data opts = .ok (some (.ver v)) →
      v ≠ base →
      ((∃ d, semverDiff base v = some d ∧
          memB d (extendSemvers (ceilingSemvers c) opts.usePre) = true) ∨
        (isVersionPrerelease data.latest = true ∧
          parseSemVer data.latest = some v)) := by
  intro ad data opts c base v hsem hrpre had hco hres hne
  have hbase : base.pre = [] := rangeToVersion_pre hco
  by_cases hstar : opts.range = "*".data
  · rw [(c10_star_range_noop ad data opts hstar).1] at hres
    simp at hres
  cases hfv : findVersion data
      (data.versions.filter (fun s => (parseSemVer s).isSome)) opts with
  | error e =>
    unfold findNewVersion at hres
    rw [if_neg hstar] at hres
    simp only [hfv] at hres
    exact Except.noConfusion hres
  | ok version =>
    by_cases hg : opts.useGreatest = true
    · unfold findNewVersion at hres
      rw [if_neg hstar] at hres
      simp only [hfv, hg, if_true] at hres
      cases version with
      | none => simp at hres
      | some w =>
        simp at hres
        obtain rfl := hres
        left
        have hclass := findVersion_class data _ opts c base w hsem hrpre hco hfv
        exact mem_extend_of_ceil hbase hclass.1 hne
          (fun hup => hclass.2 (Or.inl hup))
    · have hg2 : opts.useGreatest = false := by
        revert hg; cases opts.useGreatest <;> simp
      cases version with
      | none =>
        unfold findNewVersion at hres
        rw [if_neg hstar] at hres
        simp only [hfv, hg2, hco] at hres
        exact Except.noConfusion hres
      | some w =>
        rw [findNewVersion_eq_cascade ad data opts base w hstar hg2 hco hfv]
          at hres
        have hclass := findVersion_class data _ opts c base w hsem hrpre hco hfv
        have hwcase : w = v →
            (∃ d, semverDiff base v = some d ∧
              memB d (extendSemvers (ceilingSemvers c) opts.usePre) = true) := by
          rintro rfl
          exact mem_extend_of_ceil hbase hclass.1 hne
            (fun hup => hclass.2 (Or.inl hup))
        rw [hrpre] at hres
        rw [fnvCascade_oldRelease] at hres
        by_cases hb1 : (!opts.useRel && opts.usePre) = true
        · rw [if_pos hb1] at hres
          simp only [Except.ok.injEq, Option.some.injEq, NewVer.ver.injEq] at hres
          exact Or.inl (hwcase hres)
        · rw [if_neg hb1] at hres
          cases hlat : parseSemVer data.latest with
          | none =>
            simp only [hlat] at hres
            exact Except.noConfusion hres
          | some latest =>
            simp only [hlat] at hres
            by_cases hb5 : (match semverDiff base latest with
                | some d => d ≠ DiffClass.prerelease &&
                    !memB (stripPre d) opts.semvers
                | none => false) = true
            · rw [if_pos hb5] at hres
              simp only [Except.ok.injEq, Option.some.injEq,
                NewVer.ver.injEq] at hres
              exact Or.inl (hwcase hres)
            · rw [if_neg hb5] at hres
              by_cases hb6 : (opts.useRel && isVersionPrerelease data.latest) = true
              · rw [if_pos hb6] at hres
                simp only [Except.ok.injEq, Option.some.injEq,
                  NewVer.ver.injEq] at hres
                exact Or.inl (hwcase hres)
              · rw [if_neg hb6] at hres
                by_cases hb7 : (sCmp latest base = .lt &&
                    !isVersionPrerelease data.latest) = true
                · rw [if_pos hb7, had] at hres
                  simp at hres
                · rw [if_neg hb7] at hres
                  simp only [Except.ok.injEq, Option.some.injEq,
                    NewVer.ver.injEq] at hres
                  obtain rfl := hres
                  -- v = latest; analyse the unblocked line 563 check
                  cases hd : semverDiff base latest with
                  | none =>
                    exact absurd (semverDiff_none_iff.mp hd).symm hne
                  | some d =>
                    have hb5b : ¬(d ≠ DiffClass.prerelease ∧
                        ¬memB (stripPre d) opts.semvers = true) := by
                      intro ⟨hdp, hmemf⟩
                      apply hb5
                      rw [hd]
                      simp [hdp, hmemf]
                    have hlpre : latest.pre ≠ [] →
                        isVersionPrerelease data.latest = true := by
                      intro hnp
                      unfold isVersionPrerelease
                      rw [hlat]
                      cases hpl : latest.pre with
                      | nil => exact absurd hpl hnp
                      | cons a l => simp [hpl, List.isEmpty]
                    by_cases hdp : d = DiffClass.prerelease
                    · subst hdp
                      refine Or.inr ⟨hlpre ?_, rfl⟩
                      intro hlnil
                      exact (semverDiff_pre_class hd (by simp)) ⟨hbase, hlnil⟩
                    · have hmem : memB (stripPre d) opts.semvers = true := by
                        by_contra hmemf
                        exact hb5b ⟨hdp, fun h => hmemf h⟩
                      cases d with
                      | premajor =>
                        refine Or.inr ⟨hlpre ?_, rfl⟩
                        intro hlnil
                        exact (semverDiff_pre_class hd (by simp)) ⟨hbase, hlnil⟩
                      | preminor =>
                        refine Or.inr ⟨hlpre ?_, rfl⟩
                        intro hlnil
                        exact (semverDiff_pre_class hd (by simp)) ⟨hbase, hlnil⟩
                      | prepatch =>
                        refine Or.inr ⟨hlpre ?_, rfl⟩
                        intro hlnil
                        exact (semverDiff_pre_class hd (by simp)) ⟨hbase, hlnil⟩
                      | prerelease => exact absurd rfl hdp
                      | major =>
                        rw [hsem] at hmem
                        exact Or.inl ⟨.major, rfl, memB_extend hmem⟩
                      | minor =>
                        rw [hsem] at hmem
                        exact Or.inl ⟨.minor, rfl, memB_extend hmem⟩
                      | patch =>
                        rw [hsem] at hmem
                        exact Or.inl ⟨.patch, rfl, memB_extend hmem⟩

/-- Witness for C1: ceiling minor, base `1.0.0`, result `1.5.0`. -/
theorem c1_diff_class_in_policy_witness :
    (∃ d, semverDiff ⟨1, 0, 0, []⟩ ⟨1, 5, 0, []⟩ = some d ∧
      memB d (extendSemvers (ceilingSemvers .minor) false) = true) ∨
    (isVersionPrerelease "1.5.0".data = true ∧
      parseSemVer "1.5.0".data = some ⟨1, 5, 0, []⟩) :=
  c1_diff_class_in_policy .disabled
    ⟨"x".data, ["1.5.0".data], some [("1.5.0".data, some 10)], "1.5.0".data⟩
    ⟨false, false, false, [.patch, .minor], "^1.0.0".data⟩
    .minor ⟨1, 0, 0, []⟩ ⟨1, 5, 0, []⟩ rfl rfl rfl rfl rfl (by decide)

/-! ## The greatest-mode maximality invariant -/

theorem coerceVer_of_release {p : SemVer} (h : p.pre = []) : coerceVer p = p := by
  cases p
  simp_all [coerceVer]

/-- Under a plain (unextended) ceiling with releases everywhere, a version
whose diff from the base is accepted but whose diff from the current best
is rejected must equal the current best. -/
theorem ceil_no_skip {c : Ceiling} {base tv pv : SemVer} {dz diff : DiffClass}
    (hbase : base.pre = []) (htv : tv.pre = []) (hpv : pv.pre = [])
    (hceil : ceilOk c base tv)
    (hz : semverDiff base pv = some dz)
    (hmemz : memB dz (ceilingSemvers c) = true)
    (hd : semverDiff tv pv = some diff)
    (hskip : memB diff (ceilingSemvers c) = false) : False := by
  have hcp : ceilOk c base pv := @ceilStep _ false _ _ _ hz hmemz
  have hrels := semverDiff_release htv hpv hd
  have hcls := semverDiff_classify hd
  cases c <;>
    simp only [ceilOk] at hceil hcp <;>
    simp only [ceilingSemvers, memB] at hskip <;>
    rcases hrels with rfl | rfl | rfl <;>
    rcases hcls with ⟨hM, hd2 | hd2⟩ | ⟨hM, hm, hd2 | hd2⟩ |
      ⟨hM, hm, hp2, hd2 | hd2⟩ | ⟨hM, hm, hp2, hd2, hpre⟩ <;>
    simp_all

/-- From `sCmp a b ≠ .lt` conclude `sCmp b a ≠ .gt`. -/
theorem sCmp_not_gt_of_swap2 {a b : SemVer} (h : sCmp a b ≠ .lt) :
    sCmp b a ≠ .gt := by
  intro hg
  exact h (sCmp_swap.mpr hg)

/-- Greatest-mode scan maximality: starting from a release satisfying the
ceiling invariant, the result is at least the start and at least every
catalog release whose diff class from the base is accepted. -/
theorem fvLoop_max (ht : Bool) (time : List (Str × Option Int))
    (ug ur : Bool) (c : Ceiling) (base : SemVer)
    (hbase : base.pre = []) (hgt : (ug || !ht) = true) :
    ∀ (vs : List Str) (tv : SemVer) (d : Int) (w : SemVer),
      tv.pre = [] → ceilOk c base tv →
      fvLoop ht time ug false ur (ceilingSemvers c) vs (some tv) d =
        .ok (some w) →
      w.pre = [] ∧ ceilOk c base w ∧ sCmp tv w ≠ .gt ∧
        (∀ s pv, s ∈ vs → parseSemVer s = some pv → pv.pre = [] →
          (∃ dz, semverDiff base pv = some dz ∧
            memB dz (ceilingSemvers c) = true) →
          sCmp pv w ≠ .gt) := by
  intro vs
  induction vs with
  | nil =>
    intro tv d w htv hceil hloop
    obtain rfl : tv = w := by
      unfold fvLoop at hloop
      exact Option.some.inj (Except.ok.inj hloop)
    refine ⟨htv, hceil, ?_, ?_⟩
    · rw [sCmp_refl]; simp
    · intro s pv hs
      simp at hs
  | cons s rest ih =>
    intro tv d w htv hceil hloop
    unfold fvLoop at hloop
    cases hp : parseSemVer s with
    | none => rw [hp] at hloop; exact Except.noConfusion hloop
    | some p =>
      rw [hp] at hloop
      simp only at hloop
      by_cases c1 : (!p.pre.isEmpty && (!false || ur)) = true
      · rw [if_pos c1] at hloop
        obtain ⟨hwpre, hwceil, htw, hrest⟩ := ih tv d w htv hceil hloop
        refine ⟨hwpre, hwceil, htw, ?_⟩
        intro s2 pv hs2 hp2 hpv2 hq2
        rcases List.mem_cons.mp hs2 with rfl | hmem2
        · rw [hp] at hp2
          obtain rfl := Option.some.inj hp2
          exfalso
          rw [hpv2] at c1
          simp [List.isEmpty] at c1
        · exact hrest s2 pv hmem2 hp2 hpv2 hq2
      · rw [if_neg c1] at hloop
        have hppre : p.pre = [] := by
          by_contra hne2
          apply c1
          have h1 : (!p.pre.isEmpty) = true := by
            cases hpp : p.pre with
            | nil => exact absurd hpp hne2
            | cons a l => simp [hpp, List.isEmpty]
          rw [h1]
          rfl
        cases hd : semverDiff tv p with
        | none =>
          obtain rfl : tv = p := semverDiff_none_iff.mp hd
          simp only [hd] at hloop
          obtain ⟨hwpre, hwceil, htw, hrest⟩ := ih tv d w htv hceil hloop
          refine ⟨hwpre, hwceil, htw, ?_⟩
          intro s2 pv hs2 hp2 hpv2 hq2
          rcases List.mem_cons.mp hs2 with rfl | hmem2
          · rw [hp] at hp2
            obtain rfl := Option.some.inj hp2
            exact htw
          · exact hrest s2 pv hmem2 hp2 hpv2 hq2
        | some diff =>
          simp only [hd] at hloop
          by_cases c2 : (!memB diff (ceilingSemvers c)) = true
          · rw [if_pos c2] at hloop
            have hskip : memB diff (ceilingSemvers c) = false := by
              revert c2
              cases memB diff (ceilingSemvers c) <;> simp
            obtain ⟨hwpre, hwceil, htw, hrest⟩ := ih tv d w htv hceil hloop
            refine ⟨hwpre, hwceil, htw, ?_⟩
            intro s2 pv hs2 hp2 hpv2 hq2
            rcases List.mem_cons.mp hs2 with rfl | hmem2
            · rw [hp] at hp2
              obtain rfl := Option.some.inj hp2
              obtain ⟨dz, hz, hmemz⟩ := hq2
              exact absurd (ceil_no_skip hbase htv hpv2 hceil hz hmemz hd hskip)
                not_false
            · exact hrest s2 pv hmem2 hp2 hpv2 hq2
          · rw [if_neg c2] at hloop
            have hmem : memB diff (ceilingSemvers c) = true := by
              revert c2
              cases memB diff (ceilingSemvers c) <;> simp
            have hstep : ceilOk c base p :=
              ceilOk_trans hceil (@ceilStep _ false _ _ _ hd hmem)
            rw [if_pos hgt] at hloop
            by_cases c4 : sCmp (coerceVer p) tv ≠ .lt
            · rw [if_pos c4] at hloop
              rw [coerceVer_of_release hppre] at c4
              obtain ⟨hwpre, hwceil, hpw, hrest⟩ := ih p d w hppre hstep hloop
              have htp : sCmp tv p ≠ .gt := sCmp_not_gt_of_swap2 c4
              refine ⟨hwpre, hwceil, sCmp_le_trans htp hpw, ?_⟩
              intro s2 pv hs2 hp2 hpv2 hq2
              rcases List.mem_cons.mp hs2 with rfl | hmem2
              · rw [hp] at hp2
                obtain rfl := Option.some.inj hp2
                exact hpw
              · exact hrest s2 pv hmem2 hp2 hpv2 hq2
            · rw [if_neg c4] at hloop
              have hlt : sCmp p tv = .lt := by
                rw [coerceVer_of_release hppre] at c4
                revert c4
                cases sCmp p tv <;> simp
              obtain ⟨hwpre, hwceil, htw, hrest⟩ := ih tv d w htv hceil hloop
              refine ⟨hwpre, hwceil, htw, ?_⟩
              intro s2 pv hs2 hp2 hpv2 hq2
              rcases List.mem_cons.mp hs2 with rfl | hmem2
              · rw [hp] at hp2
                obtain rfl := Option.some.inj hp2
                exact sCmp_le_trans (by rw [hlt]; simp) htw
              · exact hrest s2 pv hmem2 hp2 hpv2 hq2

/-! ## Claim C3: greatest-mode maximality -/

/-- C3 counterexample: in greatest mode with a prerelease anchor, the scan
compares candidates by their coerced (prerelease-stripped) triples, so from
the catalog `[1.2.3-beta, 1.2.3-alpha]` it returns `1.2.3-alpha` although
`1.2.3-beta` passes the prerelease filter, has an accepted diff class from
the base, and exceeds the result in semver order. -/
theorem c3_greatest_max_cex :
    findVersion
        ⟨"x".data, ["1.2.3-beta".data, "1.2.3-alpha".data], none,
          "1.2.3-beta".data⟩
        ["1.2.3-beta".data, "1.2.3-alpha".data]
        ⟨false, false, true, [.patch, .minor, .major], "^1.2.3-0".data⟩ =
      .ok (some ⟨1, 2, 3, [.str "alpha".data]⟩) ∧
    "1.2.3-beta".data ∈ ["1.2.3-beta".data, "1.2.3-alpha".data] ∧
    parseSemVer "1.2.3-beta".data = some ⟨1, 2, 3, [.str "beta".data]⟩ ∧
    rangeToVersion "^1.2.3-0".data = some ⟨1, 2, 3, []⟩ ∧
    semverDiff ⟨1, 2, 3, []⟩ ⟨1, 2, 3, [.str "beta".data]⟩ =
      some .prerelease ∧
    memB .prerelease (extendSemvers [.patch, .minor, .major] true) = true ∧
    sCmp ⟨1, 2, 3, [.str "beta".data]⟩ ⟨1, 2, 3, [.str "alpha".data]⟩ = .gt :=
  ⟨rfl, by simp, rfl, rfl, rfl, rfl, rfl⟩

/-- C3 amended: in greatest mode (or when the catalog lacks publish-time
metadata) with the prerelease flag off and a non-prerelease range, the
version returned by `findVersion` is not exceeded — in semver order — by
the base or by any catalog release whose diff class from the base is in
the ceiling set.  With prereleases admitted into the scan, the comparison
runs on coerced triples and full semver maximality fails (see the
counterexample). -/
theorem c3_greatest_max_amended :
    ∀ (data : PackageData) (versions : List Str) (opts : Opts) (c : Ceiling)
      (base w : SemVer),
      opts.semvers = ceilingSemvers c →
      opts.usePre = false →
      isRangePrerelease opts.range = false →
      (opts.useGreatest || !data.time.isSome) = true →
      rangeToVersion opts.range = some base →
      findVersion data versions opts = .ok (some w) →
      sCmp base w ≠ .gt ∧
        (∀ s pv, s ∈ versions → parseSemVer s = some pv → pv.pre = [] →
          (∃ dz, semverDiff base pv = some dz ∧
            memB dz (ceilingSemvers c) = true) →
          sCmp pv w ≠ .gt) := by
  intro data versions opts c base w hsem hpre hrpre hgt hco hfv
  unfold findVersion at hfv
  simp only [hrpre, hpre, hco, hsem, Bool.false_or] at hfv
  have hmax := fvLoop_max data.time.isSome (data.time.getD [])
    opts.useGreatest opts.useRel c base (rangeToVersion_pre hco) hgt
    versions base 0 w (rangeToVersion_pre hco) ceilOk_refl hfv
  exact ⟨hmax.2.2.1, hmax.2.2.2⟩

/-- Witness for the amended C3: ceiling patch, base `1.0.0`, catalog
`[1.0.1, 1.0.2]` without timestamps; the result `1.0.2` is not exceeded by
the qualifying entry `1.0.1`. -/
theorem c3_greatest_max_amended_witness :
    sCmp ⟨1, 0, 1, []⟩ ⟨1, 0, 2, []⟩ ≠ .gt :=
  (c3_greatest_max_amended
      ⟨"x".data, ["1.0.1".data, "1.0.2".data], none, "1.0.2".data⟩
      ["1.0.1".data, "1.0.2".data]
      ⟨false, false, false, [.patch], "~1.0.0".data⟩
      .patch ⟨1, 0, 0, []⟩ ⟨1, 0, 2, []⟩
      rfl rfl rfl rfl rfl rfl).2
    "1.0.1".data ⟨1, 0, 1, []⟩ (by simp) rfl rfl ⟨.patch, rfl, rfl⟩
